import Mathlib

/-!
# SSD1680 e-paper driver: shallow embedding

Embedding of `components/ssd1680_epaper/ssd1680_epaper.cpp` and its header.

* Bytes (`uint8_t`) are natural numbers below 256; truncations are written `% 256`.
* `uint32_t` values (`millis()`, `start`, `pos`) are natural numbers with explicit `% 2 ^ 32`.
* The driver object and its environment are one record, `Driver`: the frame buffer,
  the `initialized_` flag, which optional pins are wired, the level the busy line shows
  on each successive read, the millisecond counter, and the log of every effect performed.
* The millisecond counter advances by `d` on `delay(d)` and on nothing else.
* `ESP_LOG*` statements are not modelled: they touch neither the driver nor the bus.
* The two busy-wait loops may spin for ever, so they take a fuel argument and return
  `none` when it runs out.
-/

namespace SSD1680

/-! ## Constants (ssd1680_epaper.cpp lines 11-13, ssd1680_epaper.h lines 27-28) -/

def WIDTH : Nat := 128
def HEIGHT : Nat := 296
def ALLSCREEN_BYTES : Nat := (WIDTH * HEIGHT) / 8

def get_height_internal : Int := 296
def get_width_internal : Int := 128

/-! ## Effects -/

/-- One observable effect of the driver on its collaborators. -/
inductive Event where
  | dcSetup
  | resetSetup
  | busySetup
  | spiSetup
  | dcWrite (level : Bool)
  | resetWrite (level : Bool)
  | enable
  | writeByte (b : Nat)
  | disable
  | busyRead (level : Bool)
  | millis
  | delay (ms : Nat)
  | feedWdt
  deriving DecidableEq, Repr

/-- The driver instance together with the environment it runs in. -/
structure Driver where
  /-- Frame buffer `buffer_`. -/
  buffer_ : List Nat
  /-- Flag `initialized_`. -/
  initialized_ : Bool
  /-- Whether `reset_pin_ != nullptr`. -/
  reset_pin_ : Bool
  /-- Whether `busy_pin_ != nullptr`. -/
  busy_pin_ : Bool
  /-- Level shown by the busy line on its `n`-th read (`true` = HIGH = busy). -/
  busyLevel : Nat → Bool
  /-- Number of reads of the busy line made so far. -/
  busyReads : Nat
  /-- Value of the 32-bit millisecond counter. -/
  now : Nat
  /-- Every effect performed so far, oldest first. -/
  trace : List Event

namespace Driver

/-- Append one effect to the log. -/
def emit (e : Event) (s : Driver) : Driver :=
  { s with trace := s.trace ++ [e] }

/-- The call `delay(ms)`: the counter advances by `ms`, wrapping at `2 ^ 32`. -/
def delay (ms : Nat) (s : Driver) : Driver :=
  { s with now := (s.now + ms) % 2 ^ 32, trace := s.trace ++ [Event.delay ms] }

/-- The call `millis()`. -/
def millis (s : Driver) : Nat × Driver :=
  (s.now, s.emit Event.millis)

/-- The call `busy_pin_->digital_read()`. -/
def digital_read_busy (s : Driver) : Bool × Driver :=
  (s.busyLevel s.busyReads,
   { s with busyReads := s.busyReads + 1,
            trace := s.trace ++ [Event.busyRead (s.busyLevel s.busyReads)] })

end Driver

/-- Subtraction of two `uint32_t` values, as in `millis() - start`. -/
def sub32 (a b : Nat) : Nat := (a + 2 ^ 32 - b % 2 ^ 32) % 2 ^ 32

/-- Low eight bits of the C expression `~v` for a `uint8_t` value `v`: integer
promotion makes `~v` the `int` value `-v - 1`. -/
def not8 (v : Nat) : Nat := ((-(v : Int) - 1) % 256).toNat

/-! ## setup (lines 15-38) -/

def setup (s : Driver) : Driver :=
  let s := s.emit Event.dcSetup
  let s := s.emit (Event.dcWrite false)
  let s := if s.reset_pin_ then (s.emit Event.resetSetup).emit (Event.resetWrite true) else s
  let s := if s.busy_pin_ then s.emit Event.busySetup else s
  let s := s.emit Event.spiSetup
  -- init_internal_(ALLSCREEN_BYTES); memset(buffer_, 0xFF, ALLSCREEN_BYTES)
  let s := { s with buffer_ := List.replicate ALLSCREEN_BYTES 0xFF }
  { s with initialized_ := false }

/-! ## wait_until_idle_ (lines 68-82) -/

/-- The `while` loop of `wait_until_idle_`. -/
def wait_until_idle_loop (timeout_ms start : Nat) : Nat → Driver → Option Driver
  | 0, _ => none
  | fuel + 1, s =>
    let (busy, s) := s.digital_read_busy
    if busy then
      let (t, s) := s.millis
      if sub32 t start > timeout_ms then
        some s
      else
        let s := s.delay 10
        let s := s.emit Event.feedWdt
        wait_until_idle_loop timeout_ms start fuel s
    else
      some s

def wait_until_idle_ (fuel : Nat) (timeout_ms : Nat) (s : Driver) : Option Driver :=
  if !s.busy_pin_ then
    some s
  else
    let (start, s) := s.millis
    wait_until_idle_loop timeout_ms start fuel s

/-- Default argument of `wait_until_idle_` (ssd1680_epaper.h line 32). -/
def DEFAULT_TIMEOUT_MS : Nat := 1000

/-! ## hw_reset_ (lines 52-66) -/

def hw_reset_ (fuel : Nat) (s : Driver) : Option Driver :=
  if !s.reset_pin_ then
    some s
  else
    let s := s.emit (Event.resetWrite true)
    let s := s.delay 10
    let s := s.emit (Event.resetWrite false)
    let s := s.delay 10
    let s := s.emit (Event.resetWrite true)
    let s := s.delay 10
    wait_until_idle_ fuel DEFAULT_TIMEOUT_MS s

/-! ## command_ and data_ (lines 84-96) -/

def command_ (cmd : Nat) (s : Driver) : Driver :=
  let s := s.emit (Event.dcWrite false)
  let s := s.emit Event.enable
  let s := s.emit (Event.writeByte cmd)
  s.emit Event.disable

def data_ (data : Nat) (s : Driver) : Driver :=
  let s := s.emit (Event.dcWrite true)
  let s := s.emit Event.enable
  let s := s.emit (Event.writeByte data)
  s.emit Event.disable

/-! ## init_display_ (lines 98-158) -/

def init_display_ (fuel : Nat) (s : Driver) : Option Driver := do
  let s ← hw_reset_ fuel s
  let s := command_ 0x12 s
  let s := s.delay 10
  let s ← wait_until_idle_ fuel DEFAULT_TIMEOUT_MS s
  let s := command_ 0x01 s
  let s := data_ 0x27 s
  let s := data_ 0x01 s
  let s := data_ 0x00 s
  let s := command_ 0x11 s
  let s := data_ 0x03 s
  let s := command_ 0x44 s
  let s := data_ 0x00 s
  let s := data_ 0x0F s
  let s := command_ 0x45 s
  let s := data_ 0x00 s
  let s := data_ 0x00 s
  let s := data_ 0x27 s
  let s := data_ 0x01 s
  let s := command_ 0x3C s
  let s := data_ 0x05 s
  let s := command_ 0x18 s
  let s := data_ 0x80 s
  let s := command_ 0x4E s
  let s := data_ 0x00 s
  let s := command_ 0x4F s
  let s := data_ 0x00 s
  let s := data_ 0x00 s
  wait_until_idle_ fuel DEFAULT_TIMEOUT_MS s

/-! ## full_update_ (lines 160-182) -/

/-- The `while` loop of `full_update_`; `break` and a false condition both leave it. -/
def full_update_loop (start : Nat) : Nat → Driver → Option Driver
  | 0, _ => none
  | fuel + 1, s =>
    if !s.busy_pin_ then
      some s
    else
      let (busy, s) := s.digital_read_busy
      if busy then
        let (t, s) := s.millis
        if sub32 t start > 5000 then
          some s
        else
          let s := s.delay 100
          let s := s.emit Event.feedWdt
          full_update_loop start fuel s
      else
        some s

def full_update_ (fuel : Nat) (s : Driver) : Option Driver :=
  let s := command_ 0x22 s
  let s := data_ 0xF7 s
  let s := command_ 0x20 s
  let (start, s) := s.millis
  full_update_loop start fuel s

/-! ## display_frame_ (lines 184-210) -/

/-- The `for` loop of `display_frame_`: one `data_` call per index below `ALLSCREEN_BYTES`. -/
def display_frame_loop (s : Driver) : Driver :=
  (List.range ALLSCREEN_BYTES).foldl (fun s i => data_ (not8 (s.buffer_.getD i 0)) s) s

def display_frame_ (fuel : Nat) (s : Driver) : Option Driver := do
  let s := command_ 0x4E s
  let s := data_ 0x00 s
  let s := command_ 0x4F s
  let s := data_ 0x00 s
  let s := data_ 0x00 s
  let s := command_ 0x24 s
  let s := display_frame_loop s
  let s ← wait_until_idle_ fuel DEFAULT_TIMEOUT_MS s
  full_update_ fuel s

/-! ## draw_absolute_pixel_internal (lines 224-243) -/

/-- Line 230: `uint32_t pos = (y * (WIDTH / 8)) + (x / 8)`. -/
def pixelPos (x y : Int) : Nat :=
  ((y * ((WIDTH : Int) / 8) + Int.tdiv x 8) % 2 ^ 32).toNat

/-- Line 231: `uint8_t bit = 0x80 >> (x % 8)`. -/
def pixelBit (x : Int) : Nat :=
  (0x80 >>> (Int.tmod x 8).toNat) % 256

/-- The colour is represented by the value of `color.is_on()`. -/
def draw_absolute_pixel_internal (x y : Int) (is_on : Bool) (s : Driver) : Driver :=
  if x < 0 ∨ x ≥ get_width_internal ∨ y < 0 ∨ y ≥ get_height_internal then
    s
  else
    let pos := pixelPos x y
    let bit := pixelBit x
    if pos ≥ ALLSCREEN_BYTES then
      s
    else if is_on then
      { s with buffer_ := s.buffer_.set pos ((s.buffer_.getD pos 0 &&& not8 bit) % 256) }
    else
      { s with buffer_ := s.buffer_.set pos ((s.buffer_.getD pos 0 ||| bit) % 256) }

/-! ## update (lines 212-222) -/

/-- One pixel write issued by the drawing code that `do_update_` runs. -/
structure PixelWrite where
  x : Int
  y : Int
  is_on : Bool
  deriving DecidableEq, Repr

/-- The framework call `do_update_()`: the drawing code reaches the buffer only through
`draw_absolute_pixel_internal`; `draws` lists the calls it makes, in order. -/
def do_update_ (draws : List PixelWrite) (s : Driver) : Driver :=
  draws.foldl (fun s p => draw_absolute_pixel_internal p.x p.y p.is_on s) s

def update (fuel : Nat) (draws : List PixelWrite) (s : Driver) : Option Driver := do
  let s ← if !s.initialized_ then
      (init_display_ fuel s).map (fun s => { s with initialized_ := true })
    else
      some s
  let s := do_update_ draws s
  display_frame_ fuel s

/-- Successive calls of `update`, one per element of `frames`. -/
def updates (fuel : Nat) : List (List PixelWrite) → Driver → Option Driver
  | [], s => some s
  | d :: ds, s => (update fuel d s).bind (updates fuel ds)

/-! ## Observations on the effect log -/

/-- One byte seen by the controller: its value and the level of the data/command line
while it was clocked out (low = command, high = data). -/
inductive Txn where
  | command (b : Nat)
  | data (b : Nat)
  deriving DecidableEq, Repr

/-- The bus transactions contained in a log; `dc` is the level of the data/command line
before the first event of the log. -/
def busTrace : Bool → List Event → List Txn
  | _, [] => []
  | _, Event.dcWrite level :: es => busTrace level es
  | dc, Event.writeByte b :: es =>
    (if dc then Txn.data b else Txn.command b) :: busTrace dc es
  | dc, _ :: es => busTrace dc es

/-- The effects performed between state `s` and a later state `s1`. -/
def emitted (s s1 : Driver) : List Event :=
  s1.trace.drop s.trace.length

/-- The data bytes at the head of a transaction list, up to the first command. -/
def dataRun : List Txn → List Nat
  | Txn.data b :: r => b :: dataRun r
  | _ => []

/-- The data bytes that follow the first occurrence of command `c`, up to the next
command byte. -/
def dataAfter (c : Nat) : List Txn → List Nat
  | [] => []
  | Txn.command b :: r => if b = c then dataRun r else dataAfter c r
  | Txn.data _ :: r => dataAfter c r

/-- Number of times command byte `c` occurs in a transaction list. -/
def countCommand (c : Nat) (l : List Txn) : Nat :=
  l.count (Txn.command c)

/-- The delays contained in a log, in order. -/
def delaysOf : List Event → List Nat
  | [] => []
  | Event.delay ms :: es => ms :: delaysOf es
  | _ :: es => delaysOf es

/-- The levels returned by the reads of the busy line contained in a log, in order. -/
def busyReadsOf : List Event → List Bool
  | [] => []
  | Event.busyRead level :: es => level :: busyReadsOf es
  | _ :: es => busyReadsOf es

/-- A driver whose buffer has not been allocated yet, as it is before `setup()`. -/
def fresh (reset_pin busy_pin : Bool) (busyLevel : Nat → Bool) (now : Nat) : Driver :=
  { buffer_ := [], initialized_ := false, reset_pin_ := reset_pin, busy_pin_ := busy_pin,
    busyLevel := busyLevel, busyReads := 0, now := now, trace := [] }

/-- The effects of one `command_(c)` call. -/
def commandEvents (c : Nat) : List Event :=
  [Event.dcWrite false, Event.enable, Event.writeByte c, Event.disable]

/-- The effects of one `data_(d)` call. -/
def dataEvents (d : Nat) : List Event :=
  [Event.dcWrite true, Event.enable, Event.writeByte d, Event.disable]

/-- The effects a busy-wait loop can perform. -/
def isWaitEvent : Event → Bool
  | Event.busyRead _ => true
  | Event.millis => true
  | Event.delay _ => true
  | Event.feedWdt => true
  | _ => false

/-- The effects that leave the bus alone: everything but a write of the data/command line
and a transmitted byte. -/
def isOffBus : Event → Bool
  | Event.dcWrite _ => false
  | Event.writeByte _ => false
  | _ => true

/-- State `s1` is state `s` after the effects `evs`, with the buffer, the flag, the wiring
and the behaviour of the busy line untouched. -/
structure Steps (s s1 : Driver) (evs : List Event) : Prop where
  buffer_eq : s1.buffer_ = s.buffer_
  initialized_eq : s1.initialized_ = s.initialized_
  reset_pin_eq : s1.reset_pin_ = s.reset_pin_
  busy_pin_eq : s1.busy_pin_ = s.busy_pin_
  busyLevel_eq : s1.busyLevel = s.busyLevel
  trace_eq : s1.trace = s.trace ++ evs

/-- Common shape of the two busy-wait loops (`wait_until_idle_` with interval 10,
`full_update_` with timeout 5000 and interval 100), used to reason about both at once. -/
def pollLoop (timeout_ms interval start : Nat) : Nat → Driver → Option Driver
  | 0, _ => none
  | fuel + 1, s =>
    let (busy, s) := s.digital_read_busy
    if busy then
      let (t, s) := s.millis
      if sub32 t start > timeout_ms then
        some s
      else
        let s := s.delay interval
        let s := s.emit Event.feedWdt
        pollLoop timeout_ms interval start fuel s
    else
      some s

/-- The log of one pass through a busy-wait loop that finds the line busy and the
timeout not yet exceeded. -/
def busyPass (interval : Nat) : List Event :=
  [Event.busyRead true, Event.millis, Event.delay interval, Event.feedWdt]

/-- The bus transactions of the initialization sequence. -/
def initTxns : List Txn :=
  [Txn.command 0x12,
   Txn.command 0x01, Txn.data 0x27, Txn.data 0x01, Txn.data 0x00,
   Txn.command 0x11, Txn.data 0x03,
   Txn.command 0x44, Txn.data 0x00, Txn.data 0x0F,
   Txn.command 0x45, Txn.data 0x00, Txn.data 0x00, Txn.data 0x27, Txn.data 0x01,
   Txn.command 0x3C, Txn.data 0x05,
   Txn.command 0x18, Txn.data 0x80,
   Txn.command 0x4E, Txn.data 0x00,
   Txn.command 0x4F, Txn.data 0x00, Txn.data 0x00]

/-- The bus transactions that precede the data stream of a frame transfer. -/
def framePrefix : List Txn :=
  [Txn.command 0x4E, Txn.data 0x00, Txn.command 0x4F, Txn.data 0x00, Txn.data 0x00,
   Txn.command 0x24]

/-- The bus transactions of the refresh trigger. -/
def refreshTxns : List Txn :=
  [Txn.command 0x22, Txn.data 0xF7, Txn.command 0x20]

/-- The data stream of a frame transfer of buffer `buf`: for each index below
`ALLSCREEN_BYTES`, in order, the complement of the byte at that index. -/
def streamTxns (buf : List Nat) : List Txn :=
  (List.range ALLSCREEN_BYTES).map (fun i => Txn.data (not8 (buf.getD i 0)))

/-- The bus transactions of one frame transfer of buffer `buf` followed by the refresh
trigger. -/
def frameTxns (buf : List Nat) : List Txn :=
  framePrefix ++ (streamTxns buf ++ refreshTxns)

/-- The effects of the `for` loop of `display_frame_` over the indices `l`. -/
def streamEvents (buf : List Nat) (l : List Nat) : List Event :=
  l.flatMap (fun i => dataEvents (not8 (buf.getD i 0)))

/-- Level of the data/command line after a log, given its level before. -/
def dcAfter : Bool → List Event → Bool
  | dc, [] => dc
  | _, Event.dcWrite level :: es => dcAfter level es
  | dc, _ :: es => dcAfter dc es

/-- The buffer contents transferred by each of a series of `update` calls: the buffer as
the drawing code of that call leaves it. -/
def framesOf : List (List PixelWrite) → Driver → List (List Nat)
  | [], _ => []
  | d :: ds, s => (do_update_ d s).buffer_ :: framesOf ds (do_update_ d s)

/-- The effects of the reset pulse of `hw_reset_` (lines 59-64). -/
def resetPulse : List Event :=
  [Event.resetWrite true, Event.delay 10, Event.resetWrite false, Event.delay 10,
   Event.resetWrite true, Event.delay 10]

/-- The register writes of `init_display_` between its two last idle waits
(lines 112-153). -/
def initRegisters (s : Driver) : Driver :=
  let s := command_ 0x01 s
  let s := data_ 0x27 s
  let s := data_ 0x01 s
  let s := data_ 0x00 s
  let s := command_ 0x11 s
  let s := data_ 0x03 s
  let s := command_ 0x44 s
  let s := data_ 0x00 s
  let s := data_ 0x0F s
  let s := command_ 0x45 s
  let s := data_ 0x00 s
  let s := data_ 0x00 s
  let s := data_ 0x27 s
  let s := data_ 0x01 s
  let s := command_ 0x3C s
  let s := data_ 0x05 s
  let s := command_ 0x18 s
  let s := data_ 0x80 s
  let s := command_ 0x4E s
  let s := data_ 0x00 s
  let s := command_ 0x4F s
  let s := data_ 0x00 s
  data_ 0x00 s

/-- The effects of `initRegisters`. -/
def initRegisterEvents : List Event :=
  commandEvents 0x01 ++ (dataEvents 0x27 ++ (dataEvents 0x01 ++ (dataEvents 0x00 ++
  (commandEvents 0x11 ++ (dataEvents 0x03 ++
  (commandEvents 0x44 ++ (dataEvents 0x00 ++ (dataEvents 0x0F ++
  (commandEvents 0x45 ++ (dataEvents 0x00 ++ (dataEvents 0x00 ++ (dataEvents 0x27 ++
  (dataEvents 0x01 ++
  (commandEvents 0x3C ++ (dataEvents 0x05 ++
  (commandEvents 0x18 ++ (dataEvents 0x80 ++
  (commandEvents 0x4E ++ (dataEvents 0x00 ++
  (commandEvents 0x4F ++ (dataEvents 0x00 ++ dataEvents 0x00)))))))))))))))))))))

/-- The effects of `display_frame_` before its `for` loop (lines 188-200). -/
def framePrefixEvents : List Event :=
  commandEvents 0x4E ++ (dataEvents 0x00 ++ (commandEvents 0x4F ++ (dataEvents 0x00 ++
  (dataEvents 0x00 ++ commandEvents 0x24))))

/-- The effects of `full_update_` before its loop, without the clock read (lines 165-167). -/
def refreshEvents : List Event :=
  commandEvents 0x22 ++ (dataEvents 0xF7 ++ commandEvents 0x20)

/-- State `s1` is state `s` after the effects `evs`, with the wiring and the behaviour of
the busy line untouched; the buffer and the flag may have changed. -/
structure Runs (s s1 : Driver) (evs : List Event) : Prop where
  reset_pin_eq : s1.reset_pin_ = s.reset_pin_
  busy_pin_eq : s1.busy_pin_ = s.busy_pin_
  busyLevel_eq : s1.busyLevel = s.busyLevel
  trace_eq : s1.trace = s.trace ++ evs

/-- The bit that stores pixel `(x, y)` in buffer `buf`: bit `7 - x mod 8`, the one selected
by the mask `0x80 >> (x mod 8)`, of the byte at index `16 * y + x / 8`. -/
def pixelBitOf (buf : List Nat) (x y : Nat) : Bool :=
  (buf.getD (16 * y + x / 8) 0).testBit (7 - x % 8)

/-- The levels written to the reset line in a log, in order. -/
def resetWritesOf : List Event → List Bool
  | [] => []
  | Event.resetWrite level :: es => level :: resetWritesOf es
  | _ :: es => resetWritesOf es

/-- Value of a 16-bit quantity sent low byte first. -/
def le16 (lo hi : Nat) : Nat :=
  lo + 256 * hi

/-- The effects on the bus and its data/command line: a write of the data/command line,
chip-select begin, a transmitted byte, chip-select end. -/
def isBusEvent : Event → Bool
  | Event.dcWrite _ => true
  | Event.enable => true
  | Event.writeByte _ => true
  | Event.disable => true
  | _ => false

/-- A write of the data/command line. -/
def isDcWrite : Event → Bool
  | Event.dcWrite _ => true
  | _ => false

/-- A transmitted byte. -/
def isWriteByte : Event → Bool
  | Event.writeByte _ => true
  | _ => false

/-- The four effects that carry one bus transaction. -/
def frameOf : Txn → List Event
  | Txn.command b => commandEvents b
  | Txn.data b => dataEvents b

/-- A log is framed when its bus effects are a succession of complete transactions, each
one a write of the data/command line, chip-select begin, one byte, chip-select end. -/
def Framed (evs : List Event) : Prop :=
  ∃ txns : List Txn, evs.filter isBusEvent = txns.flatMap frameOf

/-- The driver operations that follow `setup()`. -/
inductive Op where
  | command (b : Nat)
  | data (b : Nat)
  | wait_until_idle
  | hw_reset
  | init_display
  | full_update
  | display_frame
  | update (draws : List PixelWrite)
  | draw (x y : Int) (is_on : Bool)

/-- Run one driver operation. -/
def runOp (fuel : Nat) : Op → Driver → Option Driver
  | Op.command b, s => some (command_ b s)
  | Op.data b, s => some (data_ b s)
  | Op.wait_until_idle, s => wait_until_idle_ fuel DEFAULT_TIMEOUT_MS s
  | Op.hw_reset, s => hw_reset_ fuel s
  | Op.init_display, s => init_display_ fuel s
  | Op.full_update, s => full_update_ fuel s
  | Op.display_frame, s => display_frame_ fuel s
  | Op.update draws, s => update fuel draws s
  | Op.draw x y is_on, s => some (draw_absolute_pixel_internal x y is_on s)

/-- Run a sequence of driver operations, in order. -/
def runOps (fuel : Nat) : List Op → Driver → Option Driver
  | [], s => some s
  | op :: ops, s => (runOp fuel op s).bind (runOps fuel ops)

/-- The effects of `setup()` (lines 18-30). -/
def setupEvents (reset_pin busy_pin : Bool) : List Event :=
  [Event.dcSetup, Event.dcWrite false] ++
    ((if reset_pin then [Event.resetSetup, Event.resetWrite true] else []) ++
      ((if busy_pin then [Event.busySetup] else []) ++ [Event.spiSetup]))

/-! ## Arithmetic of the pixel address -/

theorem pixelPos_eq (x y : Nat) (hx : x < 128) (hy : y < 296) :
    pixelPos (x : Int) (y : Int) = 16 * y + x / 8 := by
  unfold pixelPos WIDTH
  rw [Int.tdiv_eq_ediv (by omega) (by omega)]
  norm_num
  omega

theorem pixelBit_eq (x : Nat) : pixelBit (x : Int) = 0x80 >>> (x % 8) := by
  unfold pixelBit
  rw [Int.tmod_eq_emod (by omega) (by omega)]
  have h1 : ((x : Int) % 8).toNat = x % 8 := by omega
  rw [h1]
  have h2 : x % 8 < 8 := Nat.mod_lt _ (by norm_num)
  generalize x % 8 = k at h2
  interval_cases k <;> rfl

theorem pixelBit_cases (x : Nat) :
    ∃ k, k < 8 ∧ 0x80 >>> (x % 8) = 2 ^ k := by
  have h2 : x % 8 < 8 := Nat.mod_lt _ (by norm_num)
  generalize x % 8 = k at h2
  interval_cases k
  · exact ⟨7, by norm_num, rfl⟩
  · exact ⟨6, by norm_num, rfl⟩
  · exact ⟨5, by norm_num, rfl⟩
  · exact ⟨4, by norm_num, rfl⟩
  · exact ⟨3, by norm_num, rfl⟩
  · exact ⟨2, by norm_num, rfl⟩
  · exact ⟨1, by norm_num, rfl⟩
  · exact ⟨0, by norm_num, rfl⟩

theorem not8_eq_sub (v : Nat) (h : v < 256) : not8 v = 255 - v := by
  unfold not8
  omega

theorem not8_lt (v : Nat) : not8 v < 256 := by
  unfold not8
  omega

theorem not8_two_pow_and (k : Nat) (hk : k < 8) : not8 (2 ^ k) &&& 2 ^ k = 0 := by
  interval_cases k <;> decide

/-- Clearing a mask bit in a byte, as `buffer_[pos] &= ~bit` does, leaves it clear. -/
theorem and_not8_clears (b k : Nat) (hk : k < 8) :
    ((b &&& not8 (2 ^ k)) % 256) &&& 2 ^ k = 0 := by
  have h : b &&& not8 (2 ^ k) < 256 := lt_of_le_of_lt Nat.and_le_right (not8_lt _)
  rw [Nat.mod_eq_of_lt h, Nat.and_assoc, not8_two_pow_and k hk, Nat.and_zero]

/-- Setting a mask bit in a byte, as `buffer_[pos] |= bit` does, leaves it set. -/
theorem or_sets (b k : Nat) (hk : k < 8) :
    ((b ||| 2 ^ k) % 256) &&& 2 ^ k = 2 ^ k := by
  apply Nat.eq_of_testBit_eq
  intro i
  have h : (256 : Nat) = 2 ^ 8 := by norm_num
  rw [h]
  simp only [Nat.testBit_and, Nat.testBit_mod_two_pow, Nat.testBit_or, Nat.testBit_two_pow]
  by_cases hi : k = i
  · subst hi
    simp [hk]
  · simp [hi]

theorem getD_set_self (l : List Nat) (i v : Nat) (h : i < l.length) :
    (l.set i v).getD i 0 = v := by
  simp [List.getD_eq_getElem?_getD, List.getElem?_set_self h]

/-! ## The buffer left by setup -/

theorem ALLSCREEN_BYTES_eq : ALLSCREEN_BYTES = 4736 := by decide

theorem setup_buffer_eq (s : Driver) :
    (setup s).buffer_ = List.replicate ALLSCREEN_BYTES 0xFF := by
  unfold setup
  rfl

theorem setup_buffer_length (s : Driver) : (setup s).buffer_.length = 4736 := by
  rw [setup_buffer_eq, List.length_replicate, ALLSCREEN_BYTES_eq]

/-! ## Pixel writes -/

theorem draw_in_bounds_buffer (s : Driver) (x y : Nat) (c : Bool)
    (hx : x < 128) (hy : y < 296) :
    (draw_absolute_pixel_internal (x : Int) (y : Int) c s).buffer_ =
      s.buffer_.set (16 * y + x / 8)
        (if c then (s.buffer_.getD (16 * y + x / 8) 0 &&& not8 (0x80 >>> (x % 8))) % 256
         else (s.buffer_.getD (16 * y + x / 8) 0 ||| 0x80 >>> (x % 8)) % 256) := by
  unfold draw_absolute_pixel_internal
  have hg : ¬ ((x : Int) < 0 ∨ (x : Int) ≥ get_width_internal ∨ (y : Int) < 0 ∨
      (y : Int) ≥ get_height_internal) := by
    unfold get_width_internal get_height_internal
    omega
  have hp : ¬ (16 * y + x / 8 ≥ ALLSCREEN_BYTES) := by
    unfold ALLSCREEN_BYTES WIDTH HEIGHT
    omega
  simp only [hg, if_false, pixelPos_eq x y hx hy, pixelBit_eq, hp]
  cases c <;> simp

/-- C1. For a 4736-byte buffer and an in-bounds pixel, the byte index is `16*y + x/8` and
the mask is `0x80 >> (x mod 8)` (a single non-zero bit); writing the pixel "on" leaves that
bit of that byte cleared and writing it "off" leaves it set; the four corners address
(byte 0, mask 0x80), (byte 15, mask 0x01), (byte 4720, mask 0x80), (byte 4735, mask 0x01). -/
theorem draw_absolute_pixel_internal_sets_bit (s : Driver) (x y : Nat)
    (hlen : s.buffer_.length = 4736) (hx : x < 128) (hy : y < 296) :
    pixelPos (x : Int) (y : Int) = 16 * y + x / 8 ∧
    pixelBit (x : Int) = 0x80 >>> (x % 8) ∧
    0x80 >>> (x % 8) ≠ 0 ∧
    (draw_absolute_pixel_internal (x : Int) (y : Int) true s).buffer_.getD (16 * y + x / 8) 0
      &&& 0x80 >>> (x % 8) = 0 ∧
    (draw_absolute_pixel_internal (x : Int) (y : Int) false s).buffer_.getD (16 * y + x / 8) 0
      &&& 0x80 >>> (x % 8) = 0x80 >>> (x % 8) ∧
    (pixelPos 0 0, pixelBit 0) = (0, 0x80) ∧
    (pixelPos 127 0, pixelBit 127) = (15, 0x01) ∧
    (pixelPos 0 295, pixelBit 0) = (4720, 0x80) ∧
    (pixelPos 127 295, pixelBit 127) = (4735, 0x01) := by
  have hi : 16 * y + x / 8 < s.buffer_.length := by omega
  obtain ⟨k, hk, hm⟩ := pixelBit_cases x
  refine ⟨pixelPos_eq x y hx hy, pixelBit_eq x, ?_, ?_, ?_, by decide, by decide, by decide,
    by decide⟩
  · rw [hm]; positivity
  · rw [draw_in_bounds_buffer s x y true hx hy, getD_set_self _ _ _ hi, hm]
    simpa using and_not8_clears _ k hk
  · rw [draw_in_bounds_buffer s x y false hx hy, getD_set_self _ _ _ hi, hm]
    simpa using or_sets _ k hk

theorem draw_absolute_pixel_internal_sets_bit_witness :
    (setup (fresh true true (fun _ => true) 0)).buffer_.length = 4736 ∧
    (draw_absolute_pixel_internal ((127 : Nat) : Int) ((295 : Nat) : Int) true
        (setup (fresh true true (fun _ => true) 0))).buffer_.getD (16 * 295 + 127 / 8) 0
      &&& 0x80 >>> (127 % 8) = 0 :=
  ⟨setup_buffer_length _,
   (draw_absolute_pixel_internal_sets_bit (setup (fresh true true (fun _ => true) 0)) 127 295
      (setup_buffer_length _) (by decide) (by decide)).2.2.2.1⟩

/-- C2. An out-of-range pixel write, for any signed coordinates and either colour, returns
the driver unchanged: same buffer (every byte and the length), same everything else. -/
theorem draw_absolute_pixel_internal_out_of_bounds (s : Driver) (x y : Int) (c : Bool)
    (h : x < 0 ∨ x ≥ 128 ∨ y < 0 ∨ y ≥ 296) :
    draw_absolute_pixel_internal x y c s = s := by
  unfold draw_absolute_pixel_internal get_width_internal get_height_internal
  rw [if_pos h]

theorem draw_absolute_pixel_internal_out_of_bounds_witness :
    draw_absolute_pixel_internal (-1) 296 true (setup (fresh true true (fun _ => true) 0)) =
      setup (fresh true true (fun _ => true) 0) :=
  draw_absolute_pixel_internal_out_of_bounds _ (-1) 296 true (by decide)

/-- C7. After `setup()` the frame buffer has exactly 4736 bytes, which is both
`ceil(128/8) * 296` and `128*296/8`, every byte is 0xFF, and `initialized_` is false. -/
theorem setup_buffer (s : Driver) :
    (setup s).buffer_.length = 4736 ∧
    (4736 = ((128 + 7) / 8) * 296 ∧ 4736 = 128 * 296 / 8 ∧ ALLSCREEN_BYTES = 4736) ∧
    (∀ b ∈ (setup s).buffer_, b = 0xFF) ∧
    (∀ i, i < 4736 → (setup s).buffer_.getD i 0 = 0xFF) ∧
    (setup s).initialized_ = false := by
  refine ⟨setup_buffer_length s, ⟨by norm_num, by norm_num, ALLSCREEN_BYTES_eq⟩, ?_, ?_, rfl⟩
  · intro b hbm
    rw [setup_buffer_eq] at hbm
    exact List.eq_of_mem_replicate hbm
  · intro i hi
    rw [setup_buffer_eq, List.getD_eq_getElem?_getD, List.getElem?_replicate,
      if_pos (by rw [ALLSCREEN_BYTES_eq]; exact hi)]
    rfl

/-! ## Composition of effects -/

theorem Steps.refl (s : Driver) : Steps s s [] :=
  ⟨rfl, rfl, rfl, rfl, rfl, (List.append_nil _).symm⟩

theorem Steps.trans {s s1 s2 : Driver} {e1 e2 : List Event}
    (h1 : Steps s s1 e1) (h2 : Steps s1 s2 e2) : Steps s s2 (e1 ++ e2) :=
  ⟨h2.buffer_eq.trans h1.buffer_eq, h2.initialized_eq.trans h1.initialized_eq,
   h2.reset_pin_eq.trans h1.reset_pin_eq, h2.busy_pin_eq.trans h1.busy_pin_eq,
   h2.busyLevel_eq.trans h1.busyLevel_eq,
   by rw [h2.trace_eq, h1.trace_eq, List.append_assoc]⟩

theorem Steps.emitted_eq {s s1 : Driver} {evs : List Event} (h : Steps s s1 evs) :
    emitted s s1 = evs := by
  unfold emitted
  rw [h.trace_eq, List.drop_left]

theorem steps_emit (e : Event) (s : Driver) : Steps s (s.emit e) [e] :=
  ⟨rfl, rfl, rfl, rfl, rfl, rfl⟩

theorem steps_delay (ms : Nat) (s : Driver) : Steps s (s.delay ms) [Event.delay ms] :=
  ⟨rfl, rfl, rfl, rfl, rfl, rfl⟩

theorem steps_millis (s : Driver) : Steps s s.millis.2 [Event.millis] :=
  ⟨rfl, rfl, rfl, rfl, rfl, rfl⟩

theorem steps_digital_read_busy (s : Driver) :
    Steps s s.digital_read_busy.2 [Event.busyRead (s.busyLevel s.busyReads)] :=
  ⟨rfl, rfl, rfl, rfl, rfl, rfl⟩

theorem steps_command (c : Nat) (s : Driver) : Steps s (command_ c s) (commandEvents c) :=
  (steps_emit _ s).trans ((steps_emit _ _).trans ((steps_emit _ _).trans (steps_emit _ _)))

theorem steps_data (d : Nat) (s : Driver) : Steps s (data_ d s) (dataEvents d) :=
  (steps_emit _ s).trans ((steps_emit _ _).trans ((steps_emit _ _).trans (steps_emit _ _)))

/-! ## The millisecond counter -/

theorem emit_now (e : Event) (s : Driver) : (s.emit e).now = s.now := rfl

theorem command__now (c : Nat) (s : Driver) : (command_ c s).now = s.now := by
  unfold command_
  simp only [emit_now]

theorem data__now (d : Nat) (s : Driver) : (data_ d s).now = s.now := by
  unfold data_
  simp only [emit_now]

theorem sub32_self (a : Nat) : sub32 a a = 0 := by
  simp only [sub32]
  omega

theorem sub32_add (a d b : Nat) : sub32 ((a + d) % 2 ^ 32) b = (sub32 a b + d) % 2 ^ 32 := by
  simp only [sub32]
  omega

theorem sub32_lt (a b : Nat) : sub32 a b < 2 ^ 32 := by
  simp only [sub32]
  omega

/-! ## The busy-wait loops -/

theorem wait_until_idle_loop_eq (T start : Nat) (fuel : Nat) (s : Driver) :
    wait_until_idle_loop T start fuel s = pollLoop T 10 start fuel s := by
  induction fuel generalizing s with
  | zero => rfl
  | succ f ih => simp only [wait_until_idle_loop, pollLoop, ih]

theorem full_update_loop_eq (start : Nat) (fuel : Nat) (s : Driver) (h : s.busy_pin_ = true) :
    full_update_loop start fuel s = pollLoop 5000 100 start fuel s := by
  induction fuel generalizing s with
  | zero => rfl
  | succ f ih =>
    simp only [full_update_loop, pollLoop, h, Bool.not_true, Bool.false_eq_true, if_false]
    rw [ih (Driver.emit Event.feedWdt (Driver.delay 100 s.digital_read_busy.2.millis.2)) h]

/-- A busy-wait loop returns whatever the busy line shows, within `T / d + 2` reads,
as long as the last elapsed time it can reach fits in 32 bits. -/
theorem pollLoop_returns (T d start : Nat) (hd : 0 < d) (hT : d * (T / d + 1) < 2 ^ 32) :
    ∀ (n k : Nat) (s : Driver), sub32 s.now start = d * k → k + n = T / d + 1 →
      ∀ fuel, n + 1 ≤ fuel →
        ∃ s1 evs, pollLoop T d start fuel s = some s1 ∧ Steps s s1 evs ∧
          ∀ e ∈ evs, isWaitEvent e = true := by
  intro n
  induction n with
  | zero =>
    intro k s hk hkn fuel hf
    obtain ⟨f, rfl⟩ : ∃ f, fuel = f + 1 := ⟨fuel - 1, by omega⟩
    cases hb : s.busyLevel s.busyReads
    · refine ⟨s.digital_read_busy.2, [Event.busyRead false], ?_, ?_, ?_⟩
      · simp [pollLoop, Driver.digital_read_busy, hb]
      · simpa [hb] using steps_digital_read_busy s
      · simp [isWaitEvent]
    · have hread : s.digital_read_busy.1 = true := hb
      have hgt : sub32 s.digital_read_busy.2.millis.1 start > T := by
        show sub32 s.now start > T
        rw [hk]
        have : k = T / d + 1 := by omega
        rw [this]
        exact Nat.lt_mul_div_succ T hd
      refine ⟨s.digital_read_busy.2.millis.2, [Event.busyRead true, Event.millis], ?_, ?_, ?_⟩
      · simp only [pollLoop]
        rw [if_pos hread, if_pos hgt]
      · have h1 := steps_digital_read_busy s
        rw [hb] at h1
        exact h1.trans (steps_millis _)
      · simp [isWaitEvent]
  | succ n ih =>
    intro k s hk hkn fuel hf
    obtain ⟨f, rfl⟩ : ∃ f, fuel = f + 1 := ⟨fuel - 1, by omega⟩
    cases hb : s.busyLevel s.busyReads
    · refine ⟨s.digital_read_busy.2, [Event.busyRead false], ?_, ?_, ?_⟩
      · simp [pollLoop, Driver.digital_read_busy, hb]
      · simpa [hb] using steps_digital_read_busy s
      · simp [isWaitEvent]
    · have hread : s.digital_read_busy.1 = true := hb
      have hle : ¬ sub32 s.digital_read_busy.2.millis.1 start > T := by
        show ¬ sub32 s.now start > T
        rw [hk]
        have h1 : d * k ≤ d * (T / d) := Nat.mul_le_mul_left d (by omega)
        have h2 : d * (T / d) ≤ T := Nat.mul_div_le T d
        omega
      have hnext : sub32 ((s.now + d) % 2 ^ 32) start = d * (k + 1) := by
        rw [sub32_add, hk]
        have h1 : d * (k + 1) ≤ d * (T / d + 1) := Nat.mul_le_mul_left d (by omega)
        have h2 : d * (k + 1) = d * k + d := Nat.mul_succ d k
        rw [← h2]
        exact Nat.mod_eq_of_lt (by omega)
      obtain ⟨s1, evs, hrun, hsteps, hev⟩ :=
        ih (k + 1) (((s.digital_read_busy.2.millis.2).delay d).emit Event.feedWdt)
          hnext (by omega) f (by omega)
      refine ⟨s1, busyPass d ++ evs, ?_, ?_, ?_⟩
      · simp only [pollLoop]
        rw [if_pos hread, if_neg hle]
        exact hrun
      · have h1 := steps_digital_read_busy s
        rw [hb] at h1
        exact (h1.trans ((steps_millis _).trans ((steps_delay d _).trans
          (steps_emit Event.feedWdt _)))).trans hsteps
      · intro e he
        rcases List.mem_append.mp he with h | h
        · simp only [busyPass, List.mem_cons, List.mem_singleton, List.not_mem_nil,
            or_false] at h
          rcases h with h | h | h | h <;> subst h <;> rfl
        · exact hev e h

theorem wait_until_idle_returns (T : Nat) (hT : 10 * (T / 10 + 1) < 2 ^ 32) (s : Driver)
    (fuel : Nat) (hf : T / 10 + 2 ≤ fuel) :
    ∃ s1 evs, wait_until_idle_ fuel T s = some s1 ∧ Steps s s1 evs ∧
      ∀ e ∈ evs, isWaitEvent e = true := by
  cases hp : s.busy_pin_
  · refine ⟨s, [], ?_, Steps.refl s, ?_⟩
    · simp [wait_until_idle_, hp]
    · intro e he
      cases he
  · obtain ⟨s1, evs, hrun, hsteps, hev⟩ :=
      pollLoop_returns T 10 s.now (by norm_num) hT (T / 10 + 1) 0 s.millis.2
        (by show sub32 s.now s.now = 10 * 0; rw [sub32_self]) (by omega) fuel (by omega)
    refine ⟨s1, Event.millis :: evs, ?_, (steps_millis s).trans hsteps, ?_⟩
    · simp only [wait_until_idle_, hp, Bool.not_true, Bool.false_eq_true, if_false,
        wait_until_idle_loop_eq]
      exact hrun
    · intro e he
      rcases List.mem_cons.mp he with h | h
      · subst h
        rfl
      · exact hev e h

theorem wait_default_returns (s : Driver) (fuel : Nat) (hf : 102 ≤ fuel) :
    ∃ s1 evs, wait_until_idle_ fuel DEFAULT_TIMEOUT_MS s = some s1 ∧ Steps s s1 evs ∧
      ∀ e ∈ evs, isWaitEvent e = true :=
  wait_until_idle_returns 1000 (by norm_num) s fuel (by omega)

theorem full_update_loop_no_pin (start f : Nat) (s : Driver) (h : s.busy_pin_ = false) :
    full_update_loop start (f + 1) s = some s := by
  simp [full_update_loop, h]

theorem full_update_unfold (fuel : Nat) (s : Driver) :
    full_update_ fuel s =
      full_update_loop (command_ 0x20 (data_ 0xF7 (command_ 0x22 s))).now fuel
        (command_ 0x20 (data_ 0xF7 (command_ 0x22 s))).millis.2 :=
  rfl

theorem full_update_loop_returns (s : Driver) (fuel : Nat) (hf : 52 ≤ fuel) :
    ∃ s1 evs, full_update_loop s.now fuel s.millis.2 = some s1 ∧
      Steps s s1 (Event.millis :: evs) ∧ ∀ e ∈ evs, isWaitEvent e = true := by
  obtain ⟨f, rfl⟩ : ∃ f, fuel = f + 1 := ⟨fuel - 1, by omega⟩
  cases hp : s.busy_pin_
  · exact ⟨s.millis.2, [], full_update_loop_no_pin _ _ _ hp, steps_millis s,
      fun e he => by cases he⟩
  · have h0 : sub32 s.millis.2.now s.now = 100 * 0 := sub32_self s.now
    obtain ⟨s1, evs, hrun, hsteps, hev⟩ :=
      pollLoop_returns 5000 100 s.now (by norm_num) (by norm_num) 51 0 s.millis.2 h0
        (by norm_num) (f + 1) (by omega)
    refine ⟨s1, evs, ?_, (steps_millis s).trans hsteps, hev⟩
    rw [full_update_loop_eq s.now (f + 1) s.millis.2 hp]
    exact hrun

theorem full_update_returns (s : Driver) (fuel : Nat) (hf : 52 ≤ fuel) :
    ∃ s1 evs, full_update_ fuel s = some s1 ∧
      Steps s s1 (commandEvents 0x22 ++ (dataEvents 0xF7 ++ (commandEvents 0x20 ++ evs))) ∧
      ∀ e ∈ evs, isWaitEvent e = true := by
  have hc : Steps s (command_ 0x20 (data_ 0xF7 (command_ 0x22 s)))
      (commandEvents 0x22 ++ (dataEvents 0xF7 ++ commandEvents 0x20)) :=
    (steps_command _ s).trans ((steps_data _ _).trans (steps_command _ _))
  rw [full_update_unfold]
  generalize command_ 0x20 (data_ 0xF7 (command_ 0x22 s)) = sc at hc ⊢
  obtain ⟨s1, evs, hrun, hsteps, hev⟩ := full_update_loop_returns sc fuel hf
  refine ⟨s1, Event.millis :: evs, hrun, ?_, ?_⟩
  · have h := hc.trans hsteps
    rw [List.append_assoc, List.append_assoc] at h
    exact h
  · intro e he
    rcases List.mem_cons.mp he with h | h
    · subst h
      rfl
    · exact hev e h

/-! ## Bus transactions of a log -/

theorem isOffBus_of_isWaitEvent (e : Event) (h : isWaitEvent e = true) : isOffBus e = true := by
  cases e <;> first | rfl | cases h

theorem busTrace_offBus (w r : List Event) (dc : Bool) (h : ∀ e ∈ w, isOffBus e = true) :
    busTrace dc (w ++ r) = busTrace dc r := by
  induction w with
  | nil => rfl
  | cons e w ih =>
    have he := h e (List.mem_cons_self _ _)
    have hw : ∀ e ∈ w, isOffBus e = true := fun e he => h e (List.mem_cons_of_mem _ he)
    cases e <;> simp [isOffBus] at he <;> simpa [busTrace] using ih hw

theorem busTrace_wait (w r : List Event) (dc : Bool) (h : ∀ e ∈ w, isWaitEvent e = true) :
    busTrace dc (w ++ r) = busTrace dc r :=
  busTrace_offBus w r dc (fun e he => isOffBus_of_isWaitEvent e (h e he))

theorem busTrace_wait_only (w : List Event) (dc : Bool) (h : ∀ e ∈ w, isWaitEvent e = true) :
    busTrace dc w = [] := by
  have := busTrace_wait w [] dc h
  simpa [busTrace] using this

theorem busTrace_command (c : Nat) (r : List Event) (dc : Bool) :
    busTrace dc (commandEvents c ++ r) = Txn.command c :: busTrace false r := by
  simp [commandEvents, busTrace]

theorem busTrace_data (d : Nat) (r : List Event) (dc : Bool) :
    busTrace dc (dataEvents d ++ r) = Txn.data d :: busTrace true r := by
  simp [dataEvents, busTrace]

theorem busTrace_append (a b : List Event) (dc : Bool) :
    busTrace dc (a ++ b) = busTrace dc a ++ busTrace (dcAfter dc a) b := by
  induction a generalizing dc with
  | nil => rfl
  | cons e a ih =>
    cases e <;> simp [busTrace, dcAfter, ih]

theorem busTrace_stream (buf : List Nat) (l : List Nat) (r : List Event) (dc : Bool) :
    busTrace dc (streamEvents buf l ++ r) =
      l.map (fun i => Txn.data (not8 (buf.getD i 0))) ++
        busTrace (if l.isEmpty then dc else true) r := by
  induction l generalizing dc with
  | nil => rfl
  | cons i l ih =>
    simp only [streamEvents, List.flatMap_cons, List.append_assoc] at ih ⊢
    rw [busTrace_data, ih]
    cases l <;> simp

/-! ## hw_reset_, init_display_ and display_frame_ return -/

theorem hw_reset_returns (s : Driver) (fuel : Nat) (hf : 102 ≤ fuel) :
    ∃ s1 w, hw_reset_ fuel s = some s1 ∧
      Steps s s1 ((if s.reset_pin_ then resetPulse else []) ++ w) ∧
      (∀ e ∈ w, isWaitEvent e = true) ∧ (s.reset_pin_ = false → w = []) := by
  cases hp : s.reset_pin_
  · refine ⟨s, [], ?_, Steps.refl s, (fun e he => by cases he), fun _ => rfl⟩
    simp [hw_reset_, hp]
  · have hc : Steps s
        ((((((s.emit (Event.resetWrite true)).delay 10).emit (Event.resetWrite false)).delay
          10).emit (Event.resetWrite true)).delay 10) resetPulse :=
      (steps_emit _ s).trans ((steps_delay _ _).trans ((steps_emit _ _).trans
        ((steps_delay _ _).trans ((steps_emit _ _).trans (steps_delay _ _)))))
    obtain ⟨s1, w, hrun, hsteps, hev⟩ := wait_default_returns
      ((((((s.emit (Event.resetWrite true)).delay 10).emit (Event.resetWrite false)).delay
          10).emit (Event.resetWrite true)).delay 10) fuel hf
    refine ⟨s1, w, ?_, hc.trans hsteps, hev, (fun h => by cases h)⟩
    simp only [hw_reset_, hp, Bool.not_true, Bool.false_eq_true, if_false]
    exact hrun

theorem steps_initRegisters (s : Driver) : Steps s (initRegisters s) initRegisterEvents :=
  (steps_command _ s).trans <| (steps_data _ _).trans <| (steps_data _ _).trans <|
  (steps_data _ _).trans <|
  (steps_command _ _).trans <| (steps_data _ _).trans <|
  (steps_command _ _).trans <| (steps_data _ _).trans <| (steps_data _ _).trans <|
  (steps_command _ _).trans <| (steps_data _ _).trans <| (steps_data _ _).trans <|
  (steps_data _ _).trans <| (steps_data _ _).trans <|
  (steps_command _ _).trans <| (steps_data _ _).trans <|
  (steps_command _ _).trans <| (steps_data _ _).trans <|
  (steps_command _ _).trans <| (steps_data _ _).trans <|
  (steps_command _ _).trans <| (steps_data _ _).trans <| steps_data _ _

theorem init_display_unfold (fuel : Nat) (s : Driver) :
    init_display_ fuel s =
      (hw_reset_ fuel s).bind (fun s1 =>
        (wait_until_idle_ fuel DEFAULT_TIMEOUT_MS ((command_ 0x12 s1).delay 10)).bind
          (fun s2 => wait_until_idle_ fuel DEFAULT_TIMEOUT_MS (initRegisters s2))) :=
  rfl

/-- The effects of `init_display_`: the optional reset pulse, an idle wait, the software
reset and its delay, an idle wait, the register writes, an idle wait. -/
theorem init_display_returns (s : Driver) (fuel : Nat) (hf : 102 ≤ fuel) :
    ∃ s1 w0 w1 w2, init_display_ fuel s = some s1 ∧
      Steps s s1 (((if s.reset_pin_ then resetPulse else []) ++ w0) ++
        (commandEvents 0x12 ++ (Event.delay 10 :: (w1 ++ (initRegisterEvents ++ w2))))) ∧
      (∀ e ∈ w0, isWaitEvent e = true) ∧ (∀ e ∈ w1, isWaitEvent e = true) ∧
      (∀ e ∈ w2, isWaitEvent e = true) ∧ (s.reset_pin_ = false → w0 = []) := by
  obtain ⟨sa, w0, hrun0, hst0, hw0, hnr⟩ := hw_reset_returns s fuel hf
  obtain ⟨sb, w1, hrun1, hst1, hw1⟩ := wait_default_returns ((command_ 0x12 sa).delay 10) fuel hf
  obtain ⟨sc, w2, hrun2, hst2, hw2⟩ := wait_default_returns (initRegisters sb) fuel hf
  refine ⟨sc, w0, w1, w2, ?_, ?_, hw0, hw1, hw2, hnr⟩
  · rw [init_display_unfold, hrun0, Option.some_bind, hrun1, Option.some_bind, hrun2]
  · have h := hst0.trans ((steps_command 0x12 sa).trans ((steps_delay 10 _).trans
      (hst1.trans ((steps_initRegisters sb).trans hst2))))
    exact h

theorem display_frame_loop_steps (l : List Nat) (s : Driver) :
    Steps s (l.foldl (fun s i => data_ (not8 (s.buffer_.getD i 0)) s) s)
      (streamEvents s.buffer_ l) := by
  induction l generalizing s with
  | nil => exact Steps.refl s
  | cons i l ih =>
    have h := (steps_data (not8 (s.buffer_.getD i 0)) s).trans
      (ih (data_ (not8 (s.buffer_.getD i 0)) s))
    exact h

theorem steps_framePrefix (s : Driver) :
    Steps s (command_ 0x24 (data_ 0x00 (data_ 0x00 (command_ 0x4F (data_ 0x00
      (command_ 0x4E s)))))) framePrefixEvents :=
  (steps_command _ s).trans <| (steps_data _ _).trans <| (steps_command _ _).trans <|
  (steps_data _ _).trans <| (steps_data _ _).trans <| steps_command _ _

theorem display_frame_unfold (fuel : Nat) (s : Driver) :
    display_frame_ fuel s =
      (wait_until_idle_ fuel DEFAULT_TIMEOUT_MS
        (display_frame_loop (command_ 0x24 (data_ 0x00 (data_ 0x00 (command_ 0x4F (data_ 0x00
          (command_ 0x4E s)))))))).bind (full_update_ fuel) :=
  rfl

/-- The effects of `display_frame_`: the address-counter reset and the write-RAM command,
the data stream, an idle wait, the refresh trigger, the refresh wait. -/
theorem display_frame_returns (s : Driver) (fuel : Nat) (hf : 102 ≤ fuel) :
    ∃ s1 w1 w2, display_frame_ fuel s = some s1 ∧
      Steps s s1 (framePrefixEvents ++ (streamEvents s.buffer_ (List.range ALLSCREEN_BYTES) ++
        (w1 ++ (commandEvents 0x22 ++ (dataEvents 0xF7 ++ (commandEvents 0x20 ++ w2)))))) ∧
      (∀ e ∈ w1, isWaitEvent e = true) ∧ (∀ e ∈ w2, isWaitEvent e = true) := by
  have hp := steps_framePrefix s
  have hl := display_frame_loop_steps (List.range ALLSCREEN_BYTES)
    (command_ 0x24 (data_ 0x00 (data_ 0x00 (command_ 0x4F (data_ 0x00 (command_ 0x4E s))))))
  rw [hp.buffer_eq] at hl
  obtain ⟨sa, w1, hrun1, hst1, hw1⟩ := wait_default_returns
    (display_frame_loop (command_ 0x24 (data_ 0x00 (data_ 0x00 (command_ 0x4F (data_ 0x00
      (command_ 0x4E s))))))) fuel hf
  obtain ⟨sb, w2, hrun2, hst2, hw2⟩ := full_update_returns sa fuel (by omega)
  refine ⟨sb, w1, w2, ?_, ?_, hw1, hw2⟩
  · rw [display_frame_unfold, hrun1, Option.some_bind, hrun2]
  · exact hp.trans (hl.trans (hst1.trans hst2))

/-! ## Bus transactions of init_display_ and display_frame_ -/

theorem busTrace_initRegisters (r : List Event) (dc : Bool) :
    busTrace dc (initRegisterEvents ++ r) = initTxns.tail ++ busTrace true r := by
  simp only [initRegisterEvents, List.append_assoc, busTrace_command, busTrace_data]
  rfl

theorem busTrace_framePrefix (r : List Event) (dc : Bool) :
    busTrace dc (framePrefixEvents ++ r) = framePrefix ++ busTrace false r := by
  simp only [framePrefixEvents, List.append_assoc, busTrace_command, busTrace_data]
  rfl

theorem isOffBus_resetPulse (p : Bool) (w : List Event) (h : ∀ e ∈ w, isWaitEvent e = true) :
    ∀ e ∈ (if p then resetPulse else []) ++ w, isOffBus e = true := by
  intro e he
  rcases List.mem_append.mp he with h1 | h1
  · cases p
    · cases h1
    · simp only [if_true, resetPulse, List.mem_cons, List.mem_singleton, List.not_mem_nil,
        or_false] at h1
      rcases h1 with h1 | h1 | h1 | h1 | h1 | h1 <;> subst h1 <;> rfl
  · exact isOffBus_of_isWaitEvent e (h e h1)

theorem init_display_bus (s : Driver) (fuel : Nat) (hf : 102 ≤ fuel) :
    ∃ s1 evs, init_display_ fuel s = some s1 ∧ Steps s s1 evs ∧
      ∀ dc, busTrace dc evs = initTxns := by
  obtain ⟨s1, w0, w1, w2, hrun, hst, hw0, hw1, hw2, -⟩ := init_display_returns s fuel hf
  refine ⟨s1, _, hrun, hst, ?_⟩
  intro dc
  rw [busTrace_offBus _ _ _ (isOffBus_resetPulse s.reset_pin_ w0 hw0), busTrace_command]
  have hd : ∀ r : List Event, busTrace false (Event.delay 10 :: r) = busTrace false r :=
    fun r => rfl
  rw [hd, busTrace_wait _ _ _ hw1, busTrace_initRegisters, busTrace_wait_only _ _ hw2]
  rfl

theorem display_frame_bus (s : Driver) (fuel : Nat) (hf : 102 ≤ fuel) :
    ∃ s1 evs, display_frame_ fuel s = some s1 ∧ Steps s s1 evs ∧
      ∀ dc, busTrace dc evs = frameTxns s.buffer_ := by
  obtain ⟨s1, w1, w2, hrun, hst, hw1, hw2⟩ := display_frame_returns s fuel hf
  refine ⟨s1, _, hrun, hst, ?_⟩
  intro dc
  rw [busTrace_framePrefix, busTrace_stream, busTrace_wait _ _ _ hw1, busTrace_command,
    busTrace_data, busTrace_command, busTrace_wait_only _ _ hw2]
  rfl

/-! ## do_update_ touches the buffer only -/

theorem draw_eq_with_buffer (x y : Int) (c : Bool) (s : Driver) :
    draw_absolute_pixel_internal x y c s =
      { s with buffer_ := (draw_absolute_pixel_internal x y c s).buffer_ } := by
  unfold draw_absolute_pixel_internal
  dsimp only
  split_ifs <;> rfl

theorem draw_buffer_congr (x y : Int) (c : Bool) (s t : Driver) (h : s.buffer_ = t.buffer_) :
    (draw_absolute_pixel_internal x y c s).buffer_ =
      (draw_absolute_pixel_internal x y c t).buffer_ := by
  unfold draw_absolute_pixel_internal
  dsimp only
  split_ifs <;> simp [h]

theorem do_update_eq_with_buffer (d : List PixelWrite) (s : Driver) :
    do_update_ d s = { s with buffer_ := (do_update_ d s).buffer_ } := by
  induction d generalizing s with
  | nil => rfl
  | cons p d ih =>
    have h1 : do_update_ (p :: d) s =
        do_update_ d (draw_absolute_pixel_internal p.x p.y p.is_on s) := rfl
    rw [h1, ih (draw_absolute_pixel_internal p.x p.y p.is_on s),
      draw_eq_with_buffer p.x p.y p.is_on s]

theorem do_update_buffer_congr (d : List PixelWrite) (s t : Driver)
    (h : s.buffer_ = t.buffer_) : (do_update_ d s).buffer_ = (do_update_ d t).buffer_ := by
  induction d generalizing s t with
  | nil => exact h
  | cons p d ih =>
    exact ih _ _ (draw_buffer_congr p.x p.y p.is_on s t h)

theorem do_update_frame (d : List PixelWrite) (t : Driver) :
    (do_update_ d t).trace = t.trace ∧ (do_update_ d t).initialized_ = t.initialized_ ∧
    (do_update_ d t).reset_pin_ = t.reset_pin_ ∧ (do_update_ d t).busy_pin_ = t.busy_pin_ ∧
    (do_update_ d t).busyLevel = t.busyLevel := by
  rw [do_update_eq_with_buffer d t]
  exact ⟨rfl, rfl, rfl, rfl, rfl⟩

theorem framesOf_congr (ds : List (List PixelWrite)) (s t : Driver)
    (h : s.buffer_ = t.buffer_) : framesOf ds s = framesOf ds t := by
  induction ds generalizing s t with
  | nil => rfl
  | cons d ds ih =>
    simp only [framesOf]
    rw [do_update_buffer_congr d s t h, ih _ _ (do_update_buffer_congr d s t h)]

theorem framesOf_length (ds : List (List PixelWrite)) (s : Driver) :
    (framesOf ds s).length = ds.length := by
  induction ds generalizing s with
  | nil => rfl
  | cons d ds ih => simp [framesOf, ih]

/-! ## update -/

theorem Steps.runs {s s1 : Driver} {evs : List Event} (h : Steps s s1 evs) : Runs s s1 evs :=
  ⟨h.reset_pin_eq, h.busy_pin_eq, h.busyLevel_eq, h.trace_eq⟩

theorem Runs.runs_refl (s : Driver) : Runs s s [] :=
  ⟨rfl, rfl, rfl, (List.append_nil _).symm⟩

theorem Runs.runs_trans {s s1 s2 : Driver} {e1 e2 : List Event}
    (h1 : Runs s s1 e1) (h2 : Runs s1 s2 e2) : Runs s s2 (e1 ++ e2) :=
  ⟨h2.reset_pin_eq.trans h1.reset_pin_eq, h2.busy_pin_eq.trans h1.busy_pin_eq,
   h2.busyLevel_eq.trans h1.busyLevel_eq,
   by rw [h2.trace_eq, h1.trace_eq, List.append_assoc]⟩

theorem Runs.runs_emitted_eq {s s1 : Driver} {evs : List Event} (h : Runs s s1 evs) :
    emitted s s1 = evs := by
  unfold emitted
  rw [h.trace_eq, List.drop_left]

theorem update_unfold (fuel : Nat) (draws : List PixelWrite) (s : Driver) :
    update fuel draws s =
      (if !s.initialized_ then
          (init_display_ fuel s).map (fun s => { s with initialized_ := true })
        else some s).bind (fun s => display_frame_ fuel (do_update_ draws s)) := by
  obtain ⟨buf, i, r, b, l, n, c, tr⟩ := s
  cases i <;> rfl

/-- One `update` call returns; it emits the initialization sequence first if and only if
the flag was unset, then one frame transfer of the freshly drawn buffer and one refresh
trigger, and leaves the flag set. -/
theorem update_returns (s : Driver) (fuel : Nat) (hf : 102 ≤ fuel) (draws : List PixelWrite) :
    ∃ s1 evs, update fuel draws s = some s1 ∧ s1.initialized_ = true ∧
      s1.buffer_ = (do_update_ draws s).buffer_ ∧ Runs s s1 evs ∧
      ∀ dc, busTrace dc evs =
        (if s.initialized_ then [] else initTxns) ++ frameTxns (do_update_ draws s).buffer_ := by
  cases hinit : s.initialized_
  · obtain ⟨sa, e0, hrun0, hst0, hb0⟩ := init_display_bus s fuel hf
    obtain ⟨sb, e1, hrun1, hst1, hb1⟩ :=
      display_frame_bus (do_update_ draws { sa with initialized_ := true }) fuel hf
    obtain ⟨ht, hi, hr, hbp, hbl⟩ := do_update_frame draws { sa with initialized_ := true }
    have hbuf : (do_update_ draws { sa with initialized_ := true }).buffer_ =
        (do_update_ draws s).buffer_ :=
      do_update_buffer_congr draws _ s hst0.buffer_eq
    refine ⟨sb, e0 ++ e1, ?_, ?_, ?_, ?_, ?_⟩
    · rw [update_unfold]
      simp only [hinit, Bool.not_false, if_true, hrun0, Option.map_some', Option.some_bind]
      exact hrun1
    · exact hst1.initialized_eq.trans hi
    · exact hst1.buffer_eq.trans hbuf
    · exact ⟨(hst1.reset_pin_eq.trans hr).trans hst0.reset_pin_eq,
        (hst1.busy_pin_eq.trans hbp).trans hst0.busy_pin_eq,
        (hst1.busyLevel_eq.trans hbl).trans hst0.busyLevel_eq,
        by rw [hst1.trace_eq, ht, ← List.append_assoc]; exact congrArg (· ++ e1) hst0.trace_eq⟩
    · intro dc
      rw [busTrace_append, hb0, hb1, hbuf]
      rfl
  · obtain ⟨sb, e1, hrun1, hst1, hb1⟩ := display_frame_bus (do_update_ draws s) fuel hf
    obtain ⟨ht, hi, hr, hbp, hbl⟩ := do_update_frame draws s
    refine ⟨sb, e1, ?_, ?_, hst1.buffer_eq, ?_, ?_⟩
    · rw [update_unfold]
      simp only [hinit, Bool.not_true, Bool.false_eq_true, if_false, Option.some_bind]
      exact hrun1
    · exact (hst1.initialized_eq.trans hi).trans hinit
    · exact ⟨hst1.reset_pin_eq.trans hr, hst1.busy_pin_eq.trans hbp,
        hst1.busyLevel_eq.trans hbl, by rw [hst1.trace_eq, ht]⟩
    · intro dc
      rw [hb1]
      rfl

/-- Successive `update` calls all return; the initialization sequence is emitted once, by
the first call, if and only if the flag was unset at the start. -/
theorem updates_returns (fuel : Nat) (hf : 102 ≤ fuel) (frames : List (List PixelWrite))
    (s : Driver) :
    ∃ s1 evs, updates fuel frames s = some s1 ∧
      s1.initialized_ = (s.initialized_ || !frames.isEmpty) ∧ Runs s s1 evs ∧
      ∀ dc, busTrace dc evs =
        (if s.initialized_ || frames.isEmpty then [] else initTxns) ++
          ((framesOf frames s).map frameTxns).flatten := by
  induction frames generalizing s with
  | nil =>
    refine ⟨s, [], rfl, by simp, Runs.runs_refl s, ?_⟩
    intro dc
    simp [framesOf, busTrace]
  | cons d ds ih =>
    obtain ⟨sa, e0, hrun0, hi0, hbuf0, hr0, hb0⟩ := update_returns s fuel hf d
    obtain ⟨sb, e1, hrun1, hi1, hr1, hb1⟩ := ih sa
    refine ⟨sb, e0 ++ e1, ?_, ?_, hr0.runs_trans hr1, ?_⟩
    · simp only [updates, hrun0, Option.some_bind]
      exact hrun1
    · rw [hi1, hi0]
      simp
    · intro dc
      rw [busTrace_append, hb0, hb1, hi0, framesOf_congr ds sa (do_update_ d s) hbuf0]
      simp [framesOf, List.append_assoc]

/-! ## The data stream -/

theorem range_map_getD (l : List Nat) (n : Nat) (h : l.length = n) :
    (List.range n).map (fun i => l.getD i 0) = l := by
  subst h
  apply List.ext_getElem?
  intro i
  simp only [List.getElem?_map, List.getD_eq_getElem?_getD]
  by_cases hi : i < l.length
  · simp [List.getElem?_range, hi]
  · have h1 : (List.range l.length)[i]? = none :=
      List.getElem?_eq_none (by rw [List.length_range]; omega)
    have h2 : l[i]? = none := List.getElem?_eq_none (by omega)
    rw [h1, h2]
    rfl

theorem streamTxns_eq_map (buf : List Nat) (h : buf.length = 4736) :
    streamTxns buf = (buf.map not8).map Txn.data := by
  have h1 : streamTxns buf =
      ((List.range ALLSCREEN_BYTES).map (fun i => buf.getD i 0)).map
        (fun b => Txn.data (not8 b)) := by
    unfold streamTxns
    rw [List.map_map]
    rfl
  rw [h1, range_map_getD buf ALLSCREEN_BYTES (by rw [ALLSCREEN_BYTES_eq]; exact h),
    List.map_map]
  rfl

theorem streamTxns_length (buf : List Nat) : (streamTxns buf).length = 4736 := by
  unfold streamTxns
  rw [List.length_map, List.length_range, ALLSCREEN_BYTES_eq]

theorem streamTxns_data (buf : List Nat) : ∀ t ∈ streamTxns buf, ∃ b, t = Txn.data b := by
  intro t ht
  unfold streamTxns at ht
  obtain ⟨i, -, hi⟩ := List.mem_map.mp ht
  exact ⟨_, hi.symm⟩

theorem dataRun_map_data (l : List Nat) (c : Nat) (r : List Txn) :
    dataRun (l.map Txn.data ++ Txn.command c :: r) = l := by
  induction l with
  | nil => rfl
  | cons b l ih => simp [dataRun, ih]

theorem dataAfter_frameTxns (buf : List Nat) (h : buf.length = 4736) :
    dataAfter 0x24 (frameTxns buf) = buf.map not8 := by
  have h1 : dataAfter 0x24 (frameTxns buf) = dataRun (streamTxns buf ++ refreshTxns) := by
    simp [frameTxns, framePrefix, dataAfter]
  rw [h1, streamTxns_eq_map buf h]
  exact dataRun_map_data _ _ _

theorem sub_eq_xor_255 : ∀ b, b < 256 → 255 - b = b ^^^ 255 := by
  intro b hb
  interval_cases b <;> rfl

theorem not8_eq_xor (b : Nat) (h : b < 256) : not8 b = b ^^^ 0xFF := by
  rw [not8_eq_sub b h]
  exact sub_eq_xor_255 b h

theorem map_not8_eq_xor (buf : List Nat) (h : ∀ b ∈ buf, b < 256) :
    buf.map not8 = buf.map (fun b => b ^^^ 0xFF) :=
  List.map_congr_left (fun b hb => not8_eq_xor b (h b hb))

/-- C3. For every buffer of 4736 bytes, `display_frame_` returns, and the data bytes it sends
after the write-RAM command 0x24, up to the next command byte, are exactly 4736 = 128*296/8
bytes: the one's complements (`b XOR 0xFF`) of the buffer bytes, in buffer order. -/
theorem display_frame_streams_complement (s : Driver) (fuel : Nat) (hf : 102 ≤ fuel)
    (hlen : s.buffer_.length = 4736) (hbytes : ∀ b ∈ s.buffer_, b < 256) :
    ∃ s1, display_frame_ fuel s = some s1 ∧ ∀ dc,
      (dataAfter 0x24 (busTrace dc (emitted s s1))).length = 4736 ∧
      4736 = 128 * 296 / 8 ∧
      dataAfter 0x24 (busTrace dc (emitted s s1)) = s.buffer_.map (fun b => b ^^^ 0xFF) ∧
      ∀ i, i < 4736 →
        (dataAfter 0x24 (busTrace dc (emitted s s1))).getD i 0 = s.buffer_.getD i 0 ^^^ 0xFF := by
  obtain ⟨s1, evs, hrun, hst, hb⟩ := display_frame_bus s fuel hf
  refine ⟨s1, hrun, ?_⟩
  intro dc
  have heq : dataAfter 0x24 (busTrace dc (emitted s s1)) =
      s.buffer_.map (fun b => b ^^^ 0xFF) := by
    rw [hst.emitted_eq, hb, dataAfter_frameTxns _ hlen, map_not8_eq_xor _ hbytes]
  refine ⟨by rw [heq, List.length_map, hlen], by norm_num, heq, ?_⟩
  intro i hi
  rw [heq, List.getD_eq_getElem?_getD, List.getD_eq_getElem?_getD, List.getElem?_map,
    List.getElem?_eq_getElem (by omega : i < s.buffer_.length)]
  rfl

theorem display_frame_streams_complement_witness :
    ∃ s1, display_frame_ 102 (setup (fresh true true (fun _ => true) 0)) = some s1 ∧
      ∀ dc, (dataAfter 0x24 (busTrace dc
        (emitted (setup (fresh true true (fun _ => true) 0)) s1))).length = 4736 :=
  (display_frame_streams_complement (setup (fresh true true (fun _ => true) 0)) 102
    (by decide) (setup_buffer_length _)
    (fun b hb => by
      rw [setup_buffer_eq] at hb
      rw [List.eq_of_mem_replicate hb]
      decide)).imp
    (fun _ h => ⟨h.1, fun dc => (h.2 dc).1⟩)

/-- C4. `init_display_` returns, and the bus transactions it emits (delays, idle waits and
reset-line writes left aside) are exactly these 24, in this order, each in the stated
command or data mode. -/
theorem init_display_sequence (s : Driver) (fuel : Nat) (hf : 102 ≤ fuel) :
    ∃ s1, init_display_ fuel s = some s1 ∧ ∀ dc,
      busTrace dc (emitted s s1) =
        [Txn.command 0x12,
         Txn.command 0x01, Txn.data 0x27, Txn.data 0x01, Txn.data 0x00,
         Txn.command 0x11, Txn.data 0x03,
         Txn.command 0x44, Txn.data 0x00, Txn.data 0x0F,
         Txn.command 0x45, Txn.data 0x00, Txn.data 0x00, Txn.data 0x27, Txn.data 0x01,
         Txn.command 0x3C, Txn.data 0x05,
         Txn.command 0x18, Txn.data 0x80,
         Txn.command 0x4E, Txn.data 0x00,
         Txn.command 0x4F, Txn.data 0x00, Txn.data 0x00] ∧
      (busTrace dc (emitted s s1)).length = 24 := by
  obtain ⟨s1, evs, hrun, hst, hb⟩ := init_display_bus s fuel hf
  refine ⟨s1, hrun, ?_⟩
  intro dc
  rw [hst.emitted_eq, hb]
  exact ⟨rfl, rfl⟩

theorem init_display_sequence_witness :
    ∃ s1, init_display_ 102 (setup (fresh true true (fun _ => true) 0)) = some s1 ∧
      (busTrace false (emitted (setup (fresh true true (fun _ => true) 0)) s1)).length = 24 :=
  (init_display_sequence (setup (fresh true true (fun _ => true) 0)) 102 (by decide)).imp
    (fun _ h => ⟨h.1, (h.2 false).2⟩)

/-! ## Counting commands -/

theorem countCommand_streamTxns (c : Nat) (buf : List Nat) :
    countCommand c (streamTxns buf) = 0 := by
  unfold countCommand
  apply List.count_eq_zero_of_not_mem
  intro h
  obtain ⟨b, hb⟩ := streamTxns_data buf _ h
  cases hb

theorem countCommand_frameTxns (c : Nat) (buf : List Nat) :
    countCommand c (frameTxns buf) = countCommand c framePrefix + countCommand c refreshTxns := by
  have h := countCommand_streamTxns c buf
  unfold countCommand at h ⊢
  rw [frameTxns, List.count_append, List.count_append, h, Nat.zero_add]

theorem countCommand_frames (c : Nat) (bufs : List (List Nat)) :
    countCommand c ((bufs.map frameTxns).flatten) =
      bufs.length * (countCommand c framePrefix + countCommand c refreshTxns) := by
  induction bufs with
  | nil => simp [countCommand]
  | cons b bufs ih =>
    have h := countCommand_frameTxns c b
    unfold countCommand at h ih ⊢
    rw [List.map_cons, List.flatten_cons, List.count_append, h, ih, List.length_cons]
    ring

/-- C8. Every `display_frame_` call returns, and its bus transactions are exactly: command
0x4E, data 0x00, command 0x4F, data 0x00, data 0x00, command 0x24; then the 4736 data bytes
of the stream; then command 0x22, data 0xF7, command 0x20, and nothing after. Every
`update` call, first or later, ends with exactly this sequence. -/
theorem display_frame_framing (s : Driver) (fuel : Nat) (hf : 102 ≤ fuel)
    (draws : List PixelWrite) :
    (∃ s1, display_frame_ fuel s = some s1 ∧ ∀ dc,
      busTrace dc (emitted s s1) =
        [Txn.command 0x4E, Txn.data 0x00, Txn.command 0x4F, Txn.data 0x00, Txn.data 0x00,
         Txn.command 0x24] ++
        (streamTxns s.buffer_ ++ [Txn.command 0x22, Txn.data 0xF7, Txn.command 0x20])) ∧
    (∀ buf, (streamTxns buf).length = 4736 ∧ ∀ t ∈ streamTxns buf, ∃ b, t = Txn.data b) ∧
    (∃ s2, update fuel draws s = some s2 ∧ ∀ dc,
      busTrace dc (emitted s s2) =
        (if s.initialized_ then [] else initTxns) ++
        ([Txn.command 0x4E, Txn.data 0x00, Txn.command 0x4F, Txn.data 0x00, Txn.data 0x00,
          Txn.command 0x24] ++
         (streamTxns s2.buffer_ ++ [Txn.command 0x22, Txn.data 0xF7, Txn.command 0x20]))) := by
  refine ⟨?_, fun buf => ⟨streamTxns_length buf, streamTxns_data buf⟩, ?_⟩
  · obtain ⟨s1, evs, hrun, hst, hb⟩ := display_frame_bus s fuel hf
    refine ⟨s1, hrun, ?_⟩
    intro dc
    rw [hst.emitted_eq, hb]
    rfl
  · obtain ⟨s2, evs, hrun, -, hbuf, hr, hb⟩ := update_returns s fuel hf draws
    refine ⟨s2, hrun, ?_⟩
    intro dc
    rw [hr.runs_emitted_eq, hb, hbuf]
    rfl

theorem display_frame_framing_witness :
    ∃ s1, display_frame_ 102 (setup (fresh true true (fun _ => true) 0)) = some s1 ∧ ∀ dc,
      busTrace dc (emitted (setup (fresh true true (fun _ => true) 0)) s1) =
        [Txn.command 0x4E, Txn.data 0x00, Txn.command 0x4F, Txn.data 0x00, Txn.data 0x00,
         Txn.command 0x24] ++
        (streamTxns (setup (fresh true true (fun _ => true) 0)).buffer_ ++
          [Txn.command 0x22, Txn.data 0xF7, Txn.command 0x20]) :=
  (display_frame_framing (setup (fresh true true (fun _ => true) 0)) 102 (by decide) []).1

/-- C5. From a state with `initialized_` unset, as `setup()` leaves it, `n >= 1` successive
`update` calls all return; their bus trace is the initialization sequence followed by `n`
frame-transfer-plus-refresh sequences, so command 0x12 occurs once and commands 0x24 and
0x20 occur `n` times each; the flag is set after the first call and after every later one. -/
theorem update_initializes_once (s : Driver) (fuel : Nat) (hf : 102 ≤ fuel)
    (frames : List (List PixelWrite)) (hs : s.initialized_ = false)
    (hn : 1 ≤ frames.length) :
    ∃ s1, updates fuel frames s = some s1 ∧ s1.initialized_ = true ∧
      (∀ dc,
        busTrace dc (emitted s s1) =
          initTxns ++ ((framesOf frames s).map frameTxns).flatten ∧
        countCommand 0x12 (busTrace dc (emitted s s1)) = 1 ∧
        countCommand 0x24 (busTrace dc (emitted s s1)) = frames.length ∧
        countCommand 0x20 (busTrace dc (emitted s s1)) = frames.length) ∧
      (framesOf frames s).length = frames.length ∧
      (∀ k, 1 ≤ k → k ≤ frames.length →
        ∃ sk, updates fuel (frames.take k) s = some sk ∧ sk.initialized_ = true) := by
  have hne : ∀ l : List (List PixelWrite), 1 ≤ l.length → l.isEmpty = false := by
    intro l hl
    cases l with
    | nil => simp at hl
    | cons a l => rfl
  obtain ⟨s1, evs, hrun, hi, hr, hb⟩ := updates_returns fuel hf frames s
  have hbus : ∀ dc, busTrace dc (emitted s s1) =
      initTxns ++ ((framesOf frames s).map frameTxns).flatten := by
    intro dc
    rw [hr.runs_emitted_eq, hb, hs, hne frames hn]
    rfl
  refine ⟨s1, hrun, ?_, ?_, framesOf_length frames s, ?_⟩
  · rw [hi, hs, hne frames hn]
    rfl
  · intro dc
    have hc : ∀ c, countCommand c (busTrace dc (emitted s s1)) =
        countCommand c initTxns +
          frames.length * (countCommand c framePrefix + countCommand c refreshTxns) := by
      intro c
      rw [hbus dc]
      have h := countCommand_frames c (framesOf frames s)
      rw [framesOf_length] at h
      unfold countCommand at h ⊢
      rw [List.count_append, h]
    refine ⟨hbus dc, ?_, ?_, ?_⟩
    · rw [hc]
      have h1 : countCommand 0x12 initTxns = 1 := by decide
      have h2 : countCommand 0x12 framePrefix + countCommand 0x12 refreshTxns = 0 := by decide
      rw [h1, h2]
      omega
    · rw [hc]
      have h1 : countCommand 0x24 initTxns = 0 := by decide
      have h2 : countCommand 0x24 framePrefix + countCommand 0x24 refreshTxns = 1 := by decide
      rw [h1, h2]
      omega
    · rw [hc]
      have h1 : countCommand 0x20 initTxns = 0 := by decide
      have h2 : countCommand 0x20 framePrefix + countCommand 0x20 refreshTxns = 1 := by decide
      rw [h1, h2]
      omega
  · intro k hk1 hk2
    obtain ⟨sk, -, hrunk, hik, -, -⟩ := updates_returns fuel hf (frames.take k) s
    refine ⟨sk, hrunk, ?_⟩
    rw [hik, hs, hne (frames.take k) (by rw [List.length_take]; omega)]
    rfl

theorem update_initializes_once_witness :
    ∃ s1, updates 102 [[], [⟨0, 0, true⟩]] (setup (fresh true true (fun _ => true) 0)) =
        some s1 ∧ s1.initialized_ = true ∧
      countCommand 0x12 (busTrace false
        (emitted (setup (fresh true true (fun _ => true) 0)) s1)) = 1 ∧
      countCommand 0x24 (busTrace false
        (emitted (setup (fresh true true (fun _ => true) 0)) s1)) = 2 ∧
      countCommand 0x20 (busTrace false
        (emitted (setup (fresh true true (fun _ => true) 0)) s1)) = 2 :=
  (update_initializes_once (setup (fresh true true (fun _ => true) 0)) 102 (by decide)
    [[], [⟨0, 0, true⟩]] rfl (by decide)).imp
    (fun _ h => ⟨h.1, h.2.1, (h.2.2.1 false).2.1, (h.2.2.1 false).2.2.1,
      (h.2.2.1 false).2.2.2⟩)

/-! ## A busy line that never goes idle -/

theorem delaysOf_append (a b : List Event) : delaysOf (a ++ b) = delaysOf a ++ delaysOf b := by
  induction a with
  | nil => rfl
  | cons e a ih => cases e <;> simp [delaysOf, ih]

theorem busyReadsOf_append (a b : List Event) :
    busyReadsOf (a ++ b) = busyReadsOf a ++ busyReadsOf b := by
  induction a with
  | nil => rfl
  | cons e a ih => cases e <;> simp [busyReadsOf, ih]

theorem delaysOf_passes (n d : Nat) :
    delaysOf (List.replicate n (busyPass d)).flatten = List.replicate n d := by
  induction n with
  | zero => rfl
  | succ n ih =>
    rw [List.replicate_succ, List.flatten_cons, delaysOf_append, ih, List.replicate_succ]
    rfl

theorem busyReadsOf_passes (n d : Nat) :
    busyReadsOf (List.replicate n (busyPass d)).flatten = List.replicate n true := by
  induction n with
  | zero => rfl
  | succ n ih =>
    rw [List.replicate_succ, List.flatten_cons, busyReadsOf_append, ih, List.replicate_succ]
    rfl

/-- Against a line that always reads busy, a busy-wait loop makes exactly `T / d + 1` passes
with a delay, then one more read, and leaves with elapsed time `d * (T / d + 1)`. -/
theorem pollLoop_always_busy (T d start : Nat) (hd : 0 < d) (hT : d * (T / d + 1) < 2 ^ 32) :
    ∀ (n k : Nat) (s : Driver), (∀ i, s.busyLevel i = true) → sub32 s.now start = d * k →
      k + n = T / d + 1 → ∀ fuel, n + 1 ≤ fuel →
        ∃ s1, pollLoop T d start fuel s = some s1 ∧
          Steps s s1 ((List.replicate n (busyPass d)).flatten ++
            [Event.busyRead true, Event.millis]) ∧
          sub32 s1.now start = d * (T / d + 1) := by
  intro n
  induction n with
  | zero =>
    intro k s hbusy hk hkn fuel hf
    obtain ⟨f, rfl⟩ : ∃ f, fuel = f + 1 := ⟨fuel - 1, by omega⟩
    have hb : s.busyLevel s.busyReads = true := hbusy _
    have hread : s.digital_read_busy.1 = true := hb
    have hk2 : k = T / d + 1 := by omega
    have hgt : sub32 s.digital_read_busy.2.millis.1 start > T := by
      show sub32 s.now start > T
      rw [hk, hk2]
      exact Nat.lt_mul_div_succ T hd
    refine ⟨s.digital_read_busy.2.millis.2, ?_, ?_, ?_⟩
    · simp only [pollLoop]
      rw [if_pos hread, if_pos hgt]
    · have h1 := steps_digital_read_busy s
      rw [hb] at h1
      exact h1.trans (steps_millis _)
    · show sub32 s.now start = d * (T / d + 1)
      rw [hk, hk2]
  | succ n ih =>
    intro k s hbusy hk hkn fuel hf
    obtain ⟨f, rfl⟩ : ∃ f, fuel = f + 1 := ⟨fuel - 1, by omega⟩
    have hb : s.busyLevel s.busyReads = true := hbusy _
    have hread : s.digital_read_busy.1 = true := hb
    have hle : ¬ sub32 s.digital_read_busy.2.millis.1 start > T := by
      show ¬ sub32 s.now start > T
      rw [hk]
      have h1 : d * k ≤ d * (T / d) := Nat.mul_le_mul_left d (by omega)
      have h2 : d * (T / d) ≤ T := Nat.mul_div_le T d
      omega
    have hnext : sub32 ((s.now + d) % 2 ^ 32) start = d * (k + 1) := by
      rw [sub32_add, hk]
      have h1 : d * (k + 1) ≤ d * (T / d + 1) := Nat.mul_le_mul_left d (by omega)
      have h2 : d * (k + 1) = d * k + d := Nat.mul_succ d k
      rw [← h2]
      exact Nat.mod_eq_of_lt (by omega)
    obtain ⟨s1, hrun, hsteps, hel⟩ :=
      ih (k + 1) (((s.digital_read_busy.2.millis.2).delay d).emit Event.feedWdt)
        hbusy hnext (by omega) f (by omega)
    refine ⟨s1, ?_, ?_, hel⟩
    · simp only [pollLoop]
      rw [if_pos hread, if_neg hle]
      exact hrun
    · have h1 := steps_digital_read_busy s
      rw [hb] at h1
      have h2 := (h1.trans ((steps_millis _).trans ((steps_delay d _).trans
        (steps_emit Event.feedWdt _)))).trans hsteps
      rw [List.replicate_succ, List.flatten_cons, List.append_assoc]
      exact h2

/-- With the largest 32-bit timeout the elapsed time can never exceed it. -/
theorem wait_until_idle_loop_max_timeout (start : Nat) :
    ∀ (fuel : Nat) (s : Driver), (∀ i, s.busyLevel i = true) →
      wait_until_idle_loop 4294967295 start fuel s = none := by
  intro fuel
  induction fuel with
  | zero =>
    intro s _
    rfl
  | succ f ih =>
    intro s hbusy
    have hread : s.digital_read_busy.1 = true := hbusy _
    have hle : ¬ sub32 s.digital_read_busy.2.millis.1 start > 4294967295 := by
      have := sub32_lt s.digital_read_busy.2.millis.1 start
      omega
    simp only [wait_until_idle_loop]
    rw [if_pos hread, if_neg hle]
    exact ih _ hbusy

theorem wait_until_idle_unfold (fuel T : Nat) (s : Driver) (h : s.busy_pin_ = true) :
    wait_until_idle_ fuel T s = pollLoop T 10 s.now fuel s.millis.2 := by
  simp only [wait_until_idle_, h, Bool.not_true, Bool.false_eq_true, if_false,
    wait_until_idle_loop_eq]
  rfl

theorem wait_until_idle_always_busy (s : Driver) (T fuel : Nat)
    (hpin : s.busy_pin_ = true) (hbusy : ∀ i, s.busyLevel i = true)
    (hT : 10 * (T / 10 + 1) < 2 ^ 32) (hf : T / 10 + 2 ≤ fuel) :
    ∃ s1, wait_until_idle_ fuel T s = some s1 ∧
      Steps s s1 (Event.millis :: ((List.replicate (T / 10 + 1) (busyPass 10)).flatten ++
        [Event.busyRead true, Event.millis])) ∧
      sub32 s1.now s.now = 10 * (T / 10 + 1) := by
  obtain ⟨s1, hrun, hst, hel⟩ :=
    pollLoop_always_busy T 10 s.now (by norm_num) hT (T / 10 + 1) 0 s.millis.2 hbusy
      (sub32_self s.now) (by omega) fuel (by omega)
  refine ⟨s1, ?_, (steps_millis s).trans hst, hel⟩
  rw [wait_until_idle_unfold fuel T s hpin]
  exact hrun

theorem full_update_always_busy (s : Driver) (fuel : Nat)
    (hpin : s.busy_pin_ = true) (hbusy : ∀ i, s.busyLevel i = true) (hf : 52 ≤ fuel) :
    ∃ s1, full_update_ fuel s = some s1 ∧
      Steps s s1 (refreshEvents ++ (Event.millis ::
        ((List.replicate 51 (busyPass 100)).flatten ++ [Event.busyRead true, Event.millis]))) ∧
      sub32 s1.now s.now = 5100 := by
  have hc : Steps s (command_ 0x20 (data_ 0xF7 (command_ 0x22 s))) refreshEvents :=
    (steps_command _ s).trans ((steps_data _ _).trans (steps_command _ _))
  have hnow : (command_ 0x20 (data_ 0xF7 (command_ 0x22 s))).now = s.now := by
    rw [command__now, data__now, command__now]
  rw [full_update_unfold]
  generalize command_ 0x20 (data_ 0xF7 (command_ 0x22 s)) = sc at hc hnow ⊢
  have hbusy2 : ∀ i, sc.millis.2.busyLevel i = true := by
    intro i
    have h : sc.millis.2.busyLevel = s.busyLevel := hc.busyLevel_eq
    rw [h]
    exact hbusy i
  have hpin2 : sc.millis.2.busy_pin_ = true := hc.busy_pin_eq.trans hpin
  obtain ⟨s1, hrun, hst, hel⟩ :=
    pollLoop_always_busy 5000 100 sc.now (by norm_num) (by norm_num) 51 0 sc.millis.2 hbusy2
      (sub32_self sc.now) (by norm_num) fuel (by omega)
  refine ⟨s1, ?_, hc.trans ((steps_millis sc).trans hst), ?_⟩
  · rw [full_update_loop_eq sc.now fuel sc.millis.2 hpin2]
    exact hrun
  · rw [← hnow, hel]

/-- C9, counterexample. With the timeout 4294967295 and a busy line that never goes idle,
`wait_until_idle_` returns for no amount of fuel: the 32-bit elapsed time cannot exceed
the timeout. -/
theorem wait_until_idle_max_timeout_never_returns :
    ¬ ∃ fuel s1, wait_until_idle_ fuel 4294967295
        (setup (fresh true true (fun _ => true) 0)) = some s1 := by
  rintro ⟨fuel, s1, h⟩
  have h2 := wait_until_idle_loop_max_timeout
    (setup (fresh true true (fun _ => true) 0)).now fuel
    (setup (fresh true true (fun _ => true) 0)).millis.2 (fun _ => rfl)
  have h3 : wait_until_idle_ fuel 4294967295 (setup (fresh true true (fun _ => true) 0)) =
      wait_until_idle_loop 4294967295 (setup (fresh true true (fun _ => true) 0)).now fuel
        (setup (fresh true true (fun _ => true) 0)).millis.2 := rfl
  rw [h3, h2] at h
  cases h

/-- C9, amended. With a busy line wired that reads busy on every poll, for every timeout
`T` with `10 * (T / 10 + 1) < 2 ^ 32`, `wait_until_idle_(T)` returns after exactly
`T / 10 + 1` passes, each with one 10 ms delay, and `T / 10 + 2` reads of the line; the
elapsed time is `10 * (T / 10 + 1)`, more than `T` and at most `T + 10` (1010 for
`T = 1000`). The wait in `full_update_` returns after exactly 51 delays of 100 ms, at
elapsed time 5100. -/
theorem wait_until_idle_bounded (s : Driver) (T fuel fuel2 : Nat)
    (hpin : s.busy_pin_ = true) (hbusy : ∀ i, s.busyLevel i = true)
    (hT : 10 * (T / 10 + 1) < 2 ^ 32) (hf : T / 10 + 2 ≤ fuel) (hf2 : 52 ≤ fuel2) :
    (∃ s1, wait_until_idle_ fuel T s = some s1 ∧
      emitted s s1 = Event.millis :: ((List.replicate (T / 10 + 1) (busyPass 10)).flatten ++
        [Event.busyRead true, Event.millis]) ∧
      delaysOf (emitted s s1) = List.replicate (T / 10 + 1) 10 ∧
      busyReadsOf (emitted s s1) = List.replicate (T / 10 + 2) true ∧
      sub32 s1.now s.now = 10 * (T / 10 + 1) ∧
      T < sub32 s1.now s.now ∧ sub32 s1.now s.now ≤ T + 10 ∧
      (T = 1000 → sub32 s1.now s.now = 1010)) ∧
    (∃ s2, full_update_ fuel2 s = some s2 ∧
      emitted s s2 = refreshEvents ++ (Event.millis ::
        ((List.replicate 51 (busyPass 100)).flatten ++ [Event.busyRead true, Event.millis])) ∧
      delaysOf (emitted s s2) = List.replicate 51 100 ∧
      sub32 s2.now s.now = 5100 ∧ 5000 < sub32 s2.now s.now ∧ sub32 s2.now s.now ≤ 5100) := by
  constructor
  · obtain ⟨s1, hrun, hst, hel⟩ := wait_until_idle_always_busy s T fuel hpin hbusy hT hf
    have hd : delaysOf (Event.millis :: ((List.replicate (T / 10 + 1) (busyPass 10)).flatten ++
        [Event.busyRead true, Event.millis])) = List.replicate (T / 10 + 1) 10 := by
      show delaysOf ((List.replicate (T / 10 + 1) (busyPass 10)).flatten ++
        [Event.busyRead true, Event.millis]) = _
      rw [delaysOf_append, delaysOf_passes]
      exact List.append_nil _
    have hr : busyReadsOf (Event.millis ::
        ((List.replicate (T / 10 + 1) (busyPass 10)).flatten ++
          [Event.busyRead true, Event.millis])) = List.replicate (T / 10 + 2) true := by
      show busyReadsOf ((List.replicate (T / 10 + 1) (busyPass 10)).flatten ++
        [Event.busyRead true, Event.millis]) = _
      rw [busyReadsOf_append, busyReadsOf_passes]
      show List.replicate (T / 10 + 1) true ++ [true] = _
      rw [← List.replicate_succ']
    refine ⟨s1, hrun, hst.emitted_eq, ?_, ?_, hel, ?_, ?_, ?_⟩
    · rw [hst.emitted_eq, hd]
    · rw [hst.emitted_eq, hr]
    · rw [hel]
      omega
    · rw [hel]
      omega
    · intro h1000
      rw [hel, h1000]
  · obtain ⟨s2, hrun, hst, hel⟩ := full_update_always_busy s fuel2 hpin hbusy hf2
    refine ⟨s2, hrun, hst.emitted_eq, ?_, hel, by rw [hel]; norm_num, by rw [hel]⟩
    rw [hst.emitted_eq, delaysOf_append]
    show delaysOf ((List.replicate 51 (busyPass 100)).flatten ++
        [Event.busyRead true, Event.millis]) = _
    rw [delaysOf_append, delaysOf_passes]
    exact List.append_nil _

theorem wait_until_idle_bounded_witness :
    ∃ s1, wait_until_idle_ 102 1000 (setup (fresh true true (fun _ => true) 4294967000)) =
        some s1 ∧
      delaysOf (emitted (setup (fresh true true (fun _ => true) 4294967000)) s1) =
        List.replicate (1000 / 10 + 1) 10 ∧
      sub32 s1.now (setup (fresh true true (fun _ => true) 4294967000)).now =
        10 * (1000 / 10 + 1) :=
  (wait_until_idle_bounded (setup (fresh true true (fun _ => true) 4294967000)) 1000 102 52
    rfl (fun _ => rfl) (by norm_num) (by norm_num) (by norm_num)).1.imp
    (fun _ h => ⟨h.1, h.2.2.1, h.2.2.2.2.1⟩)

/-- C10. With no busy line configured, `wait_until_idle_(T)` returns at once for every
timeout and leaves the whole state, effect log included, unchanged: no pin read, no clock
read, no delay, no watchdog yield. The loop of `full_update_` returns the state unchanged
too, and `full_update_` performs only the refresh trigger and one clock read: no read of
the busy line and no delay. -/
theorem wait_until_idle_no_busy_pin (s : Driver) (h : s.busy_pin_ = false) (fuel T : Nat) :
    wait_until_idle_ fuel T s = some s ∧
    (∀ start, full_update_loop start (fuel + 1) s = some s) ∧
    (∃ s1, full_update_ (fuel + 1) s = some s1 ∧
      emitted s s1 = refreshEvents ++ [Event.millis] ∧
      busyReadsOf (emitted s s1) = [] ∧ delaysOf (emitted s s1) = []) := by
  refine ⟨by simp [wait_until_idle_, h], fun start => full_update_loop_no_pin start fuel s h, ?_⟩
  have hc : Steps s (command_ 0x20 (data_ 0xF7 (command_ 0x22 s))).millis.2
      (refreshEvents ++ [Event.millis]) :=
    (steps_command _ s).trans ((steps_data _ _).trans ((steps_command _ _).trans
      (steps_millis _)))
  refine ⟨_, ?_, hc.emitted_eq, ?_, ?_⟩
  · rw [full_update_unfold]
    exact full_update_loop_no_pin _ fuel _ (hc.busy_pin_eq.trans h)
  · rw [hc.emitted_eq]
    rfl
  · rw [hc.emitted_eq]
    rfl

theorem wait_until_idle_no_busy_pin_witness :
    wait_until_idle_ 0 5000 (setup (fresh true false (fun _ => true) 0)) =
      some (setup (fresh true false (fun _ => true) 0)) :=
  (wait_until_idle_no_busy_pin (setup (fresh true false (fun _ => true) 0)) rfl 0 5000).1

/-! ## Bits of a pixel -/

theorem not8_mod (v : Nat) : not8 v = 255 - v % 256 := by
  unfold not8
  omega

theorem not8_testBit (v i : Nat) : (not8 v).testBit i = (decide (i < 8) && !v.testBit i) := by
  rw [not8_mod, sub_eq_xor_255 _ (Nat.mod_lt _ (by norm_num))]
  have h : (255 : Nat) = 2 ^ 8 - 1 := by norm_num
  have h2 : (256 : Nat) = 2 ^ 8 := by norm_num
  rw [h, h2, Nat.testBit_xor, Nat.testBit_mod_two_pow, Nat.testBit_two_pow_sub_one]
  by_cases hi : i < 8 <;> simp [hi]

theorem testBit_clear (b j k : Nat) (hk : k < 8) :
    ((b &&& not8 (2 ^ j)) % 256).testBit k = (b.testBit k && !decide (j = k)) := by
  have h2 : (256 : Nat) = 2 ^ 8 := by norm_num
  rw [h2, Nat.testBit_mod_two_pow, Nat.testBit_and, not8_testBit, Nat.testBit_two_pow]
  simp [hk]

theorem testBit_set (b j k : Nat) (hk : k < 8) :
    ((b ||| 2 ^ j) % 256).testBit k = (b.testBit k || decide (j = k)) := by
  have h2 : (256 : Nat) = 2 ^ 8 := by norm_num
  rw [h2, Nat.testBit_mod_two_pow, Nat.testBit_or, Nat.testBit_two_pow]
  simp [hk]

theorem shift_eq_pow (j : Nat) (hj : j < 8) : 0x80 >>> j = 2 ^ (7 - j) := by
  interval_cases j <;> rfl

theorem and_pow_eq (v k : Nat) : v &&& 2 ^ k = if v.testBit k then 2 ^ k else 0 := by
  apply Nat.eq_of_testBit_eq
  intro i
  rw [Nat.testBit_and, Nat.testBit_two_pow]
  by_cases hi : k = i
  · subst hi
    cases h : v.testBit k <;> simp [Nat.testBit_two_pow]
  · cases h : v.testBit k <;> simp [hi, Nat.testBit_two_pow]

/-- Reading a pixel through its mask is reading its bit. -/
theorem and_mask_eq (buf : List Nat) (x y : Nat) :
    buf.getD (16 * y + x / 8) 0 &&& 0x80 >>> (x % 8) =
      if pixelBitOf buf x y then 0x80 >>> (x % 8) else 0 := by
  rw [shift_eq_pow _ (Nat.mod_lt _ (by norm_num)), and_pow_eq]
  rfl

theorem getD_set_ne (l : List Nat) (i j v : Nat) (h : i ≠ j) :
    (l.set i v).getD j 0 = l.getD j 0 := by
  simp [List.getD_eq_getElem?_getD, List.getElem?_set_ne h]

theorem draw_out_of_bounds (s : Driver) (x y : Int) (c : Bool)
    (h : x < 0 ∨ x ≥ 128 ∨ y < 0 ∨ y ≥ 296) :
    draw_absolute_pixel_internal x y c s = s := by
  unfold draw_absolute_pixel_internal get_width_internal get_height_internal
  rw [if_pos h]

theorem draw_buffer_length (s : Driver) (x y : Int) (c : Bool) :
    (draw_absolute_pixel_internal x y c s).buffer_.length = s.buffer_.length := by
  unfold draw_absolute_pixel_internal
  dsimp only
  split_ifs <;> simp

theorem do_update_buffer_length (d : List PixelWrite) (s : Driver) :
    (do_update_ d s).buffer_.length = s.buffer_.length := by
  induction d generalizing s with
  | nil => rfl
  | cons p d ih =>
    have h1 : do_update_ (p :: d) s =
        do_update_ d (draw_absolute_pixel_internal p.x p.y p.is_on s) := rfl
    rw [h1, ih, draw_buffer_length]

/-- Writing a pixel stores the complement of the colour in its bit. -/
theorem draw_own_bit (s : Driver) (x y : Nat) (c : Bool)
    (hlen : s.buffer_.length = 4736) (hx : x < 128) (hy : y < 296) :
    pixelBitOf (draw_absolute_pixel_internal (x : Int) (y : Int) c s).buffer_ x y = !c := by
  have hk : 7 - x % 8 < 8 := by omega
  unfold pixelBitOf
  rw [draw_in_bounds_buffer s x y c hx hy, getD_set_self _ _ _ (by omega),
    shift_eq_pow _ (Nat.mod_lt _ (by norm_num))]
  cases c
  · simp only [Bool.false_eq_true, if_false]
    rw [testBit_set _ _ _ hk]
    simp
  · simp only [if_true]
    rw [testBit_clear _ _ _ hk]
    simp

/-- Writing any other pixel, in range or not, leaves the bit of pixel `(x, y)` alone. -/
theorem draw_other_bit (s : Driver) (x y : Nat) (px py : Int) (c : Bool)
    (hlen : s.buffer_.length = 4736) (hx : x < 128) (hy : y < 296)
    (hne : ¬ (px = (x : Int) ∧ py = (y : Int))) :
    pixelBitOf (draw_absolute_pixel_internal px py c s).buffer_ x y =
      pixelBitOf s.buffer_ x y := by
  by_cases hob : px < 0 ∨ px ≥ 128 ∨ py < 0 ∨ py ≥ 296
  · rw [draw_out_of_bounds s px py c hob]
  · have hpx : 0 ≤ px := by omega
    have hpy : 0 ≤ py := by omega
    lift px to Nat using hpx
    lift py to Nat using hpy
    have ha : px < 128 := by omega
    have hb : py < 296 := by omega
    have hne2 : ¬ (px = x ∧ py = y) := by
      intro h
      exact hne ⟨by exact_mod_cast h.1, by exact_mod_cast h.2⟩
    have hk : 7 - x % 8 < 8 := by omega
    unfold pixelBitOf
    rw [draw_in_bounds_buffer s px py c ha hb]
    by_cases hpos : 16 * py + px / 8 = 16 * y + x / 8
    · have hkk : ¬ (7 - px % 8 = 7 - x % 8) := by omega
      rw [hpos, getD_set_self _ _ _ (by omega), shift_eq_pow _ (Nat.mod_lt _ (by norm_num))]
      cases c
      · simp only [Bool.false_eq_true, if_false]
        rw [testBit_set _ _ _ hk]
        simp [hkk]
      · simp only [if_true]
        rw [testBit_clear _ _ _ hk]
        simp [hkk]
    · rw [getD_set_ne _ _ _ _ hpos]

theorem do_update_other_bits (d : List PixelWrite) (s : Driver) (x y : Nat)
    (hlen : s.buffer_.length = 4736) (hx : x < 128) (hy : y < 296)
    (hd : ∀ p ∈ d, ¬ (p.x = (x : Int) ∧ p.y = (y : Int))) :
    pixelBitOf (do_update_ d s).buffer_ x y = pixelBitOf s.buffer_ x y := by
  induction d generalizing s with
  | nil => rfl
  | cons p d ih =>
    have h1 : do_update_ (p :: d) s =
        do_update_ d (draw_absolute_pixel_internal p.x p.y p.is_on s) := rfl
    rw [h1, ih _ (by rw [draw_buffer_length]; exact hlen)
      (fun q hq => hd q (List.mem_cons_of_mem _ hq)),
      draw_other_bit s x y p.x p.y p.is_on hlen hx hy (hd p (List.mem_cons_self _ _))]

/-- The streamed byte of a pixel carries the complement of its buffer bit. -/
theorem streamed_mask (buf : List Nat) (x y : Nat) (hlen : buf.length = 4736)
    (hx : x < 128) (hy : y < 296) :
    (buf.map not8).getD (16 * y + x / 8) 0 &&& 0x80 >>> (x % 8) =
      if pixelBitOf buf x y then 0 else 0x80 >>> (x % 8) := by
  have hk : 7 - x % 8 < 8 := by omega
  have hi : 16 * y + x / 8 < buf.length := by omega
  have h1 : (buf.map not8).getD (16 * y + x / 8) 0 = not8 (buf.getD (16 * y + x / 8) 0) := by
    rw [List.getD_eq_getElem?_getD, List.getD_eq_getElem?_getD, List.getElem?_map,
      List.getElem?_eq_getElem hi]
    rfl
  rw [h1, shift_eq_pow _ (Nat.mod_lt _ (by norm_num)), and_pow_eq, not8_testBit]
  unfold pixelBitOf
  cases (buf.getD (16 * y + x / 8) 0).testBit (7 - x % 8) <;> simp [hk]

/-- C6. For a 4736-byte buffer and an in-bounds pixel `(x, y)`: when the pixel is written
with colour `c` and then only other pixels are written before `display_frame_`, the
streamed data byte at position `16*y + x/8` after command 0x24 has the bit
`0x80 >> (x mod 8)` equal to 1 if `c` is on and to 0 if `c` is off; and the buffer left by
`setup()` is streamed as 4736 bytes, all 0x00. -/
theorem end_to_end_polarity (s : Driver) (x y : Nat) (c : Bool) (later : List PixelWrite)
    (fuel : Nat) (hf : 102 ≤ fuel) (hlen : s.buffer_.length = 4736)
    (hx : x < 128) (hy : y < 296)
    (hlater : ∀ p ∈ later, ¬ (p.x = (x : Int) ∧ p.y = (y : Int))) :
    (∃ s1, display_frame_ fuel
        (do_update_ later (draw_absolute_pixel_internal (x : Int) (y : Int) c s)) = some s1 ∧
      ∀ dc,
        (dataAfter 0x24 (busTrace dc (emitted
          (do_update_ later (draw_absolute_pixel_internal (x : Int) (y : Int) c s)) s1))).getD
            (16 * y + x / 8) 0 &&& 0x80 >>> (x % 8) =
          if c then 0x80 >>> (x % 8) else 0) ∧
    (0x80 >>> (x % 8) ≠ 0) ∧
    (∀ s0, ∃ s1, display_frame_ fuel (setup s0) = some s1 ∧
      ∀ dc, dataAfter 0x24 (busTrace dc (emitted (setup s0) s1)) = List.replicate 4736 0x00) := by
  refine ⟨?_, ?_, ?_⟩
  · have hlen1 : (draw_absolute_pixel_internal (x : Int) (y : Int) c s).buffer_.length = 4736 := by
      rw [draw_buffer_length]
      exact hlen
    have hlen2 : (do_update_ later
        (draw_absolute_pixel_internal (x : Int) (y : Int) c s)).buffer_.length = 4736 := by
      rw [do_update_buffer_length]
      exact hlen1
    have hbit : pixelBitOf (do_update_ later
        (draw_absolute_pixel_internal (x : Int) (y : Int) c s)).buffer_ x y = !c := by
      rw [do_update_other_bits later _ x y hlen1 hx hy hlater, draw_own_bit s x y c hlen hx hy]
    obtain ⟨s1, evs, hrun, hst, hb⟩ := display_frame_bus
      (do_update_ later (draw_absolute_pixel_internal (x : Int) (y : Int) c s)) fuel hf
    refine ⟨s1, hrun, ?_⟩
    intro dc
    rw [hst.emitted_eq, hb, dataAfter_frameTxns _ hlen2, streamed_mask _ x y hlen2 hx hy, hbit]
    cases c <;> rfl
  · rw [shift_eq_pow _ (Nat.mod_lt _ (by norm_num))]
    positivity
  · intro s0
    obtain ⟨s1, evs, hrun, hst, hb⟩ := display_frame_bus (setup s0) fuel hf
    refine ⟨s1, hrun, ?_⟩
    intro dc
    rw [hst.emitted_eq, hb, dataAfter_frameTxns _ (setup_buffer_length s0), setup_buffer_eq,
      List.map_replicate, ALLSCREEN_BYTES_eq]
    rfl

theorem end_to_end_polarity_witness :
    ∃ s1, display_frame_ 102
        (do_update_ [⟨4, 0, false⟩] (draw_absolute_pixel_internal ((3 : Nat) : Int)
          ((0 : Nat) : Int) true (setup (fresh true true (fun _ => true) 0)))) = some s1 ∧
      ∀ dc,
        (dataAfter 0x24 (busTrace dc (emitted
          (do_update_ [⟨4, 0, false⟩] (draw_absolute_pixel_internal ((3 : Nat) : Int)
            ((0 : Nat) : Int) true (setup (fresh true true (fun _ => true) 0)))) s1))).getD
            (16 * 0 + 3 / 8) 0 &&& 0x80 >>> (3 % 8) =
          if true then 0x80 >>> (3 % 8) else 0 :=
  (end_to_end_polarity (setup (fresh true true (fun _ => true) 0)) 3 0 true [⟨4, 0, false⟩] 102
    (by decide) (setup_buffer_length _) (by decide) (by decide)
    (fun p hp => by
      rw [List.mem_singleton.mp hp]
      decide)).1

/-! ## A busy line that goes idle -/

/-- Against a line that reads busy for the next `k` reads and idle on the one after, a
busy-wait loop makes exactly `k` passes with a delay and leaves at the idle reading,
as long as the timeout is not exceeded before it. -/
theorem pollLoop_idle_after (T d start : Nat) (hT : T < 2 ^ 32) :
    ∀ (k j : Nat) (s : Driver),
      (∀ i, i < k → s.busyLevel (s.busyReads + i) = true) →
      s.busyLevel (s.busyReads + k) = false →
      sub32 s.now start = d * j → d * (j + k) ≤ T →
      ∀ fuel, k + 1 ≤ fuel →
        ∃ s1, pollLoop T d start fuel s = some s1 ∧
          Steps s s1 ((List.replicate k (busyPass d)).flatten ++ [Event.busyRead false]) ∧
          sub32 s1.now start = d * (j + k) := by
  intro k
  induction k with
  | zero =>
    intro j s _ hidle hj _ fuel hf
    obtain ⟨f, rfl⟩ : ∃ f, fuel = f + 1 := ⟨fuel - 1, by omega⟩
    have hb : s.busyLevel s.busyReads = false := hidle
    refine ⟨s.digital_read_busy.2, ?_, ?_, ?_⟩
    · simp [pollLoop, Driver.digital_read_busy, hb]
    · simpa [hb] using steps_digital_read_busy s
    · exact hj
  | succ k ih =>
    intro j s hbusy hidle hj hle fuel hf
    obtain ⟨f, rfl⟩ : ∃ f, fuel = f + 1 := ⟨fuel - 1, by omega⟩
    have hb : s.busyLevel s.busyReads = true := hbusy 0 (by omega)
    have hread : s.digital_read_busy.1 = true := hb
    have h1 : d * (j + (k + 1)) = d * j + d + d * k := by ring
    have hnot : ¬ sub32 s.digital_read_busy.2.millis.1 start > T := by
      show ¬ sub32 s.now start > T
      rw [hj]
      omega
    have hnext : sub32 ((s.now + d) % 2 ^ 32) start = d * (j + 1) := by
      rw [sub32_add, hj]
      have h2 : d * (j + 1) = d * j + d := Nat.mul_succ d j
      rw [← h2]
      exact Nat.mod_eq_of_lt (by omega)
    obtain ⟨s1, hrun, hsteps, hel⟩ :=
      ih (j + 1) (((s.digital_read_busy.2.millis.2).delay d).emit Event.feedWdt)
        (fun i hi => by
          have := hbusy (i + 1) (by omega)
          show s.busyLevel (s.busyReads + 1 + i) = true
          rw [Nat.add_assoc, Nat.add_comm 1 i]
          exact this)
        (by
          show s.busyLevel (s.busyReads + 1 + k) = false
          rw [Nat.add_assoc, Nat.add_comm 1 k]
          exact hidle)
        hnext
        (by
          have h3 : d * (j + 1 + k) = d * j + d + d * k := by ring
          omega)
        f (by omega)
    refine ⟨s1, ?_, ?_, ?_⟩
    · simp only [pollLoop]
      rw [if_pos hread, if_neg hnot]
      exact hrun
    · have h4 := steps_digital_read_busy s
      rw [hb] at h4
      have h5 := (h4.trans ((steps_millis _).trans ((steps_delay d _).trans
        (steps_emit Event.feedWdt _)))).trans hsteps
      rw [List.replicate_succ, List.flatten_cons, List.append_assoc]
      exact h5
    · rw [hel]
      congr 1
      omega

/-- C15. With a busy line wired that reads busy on the next `k` polls and idle on the one
after, for every 32-bit timeout `T` with `10 * k <= T`, `wait_until_idle_(T)` returns at
the first idle reading: its effects are one clock read, `k` passes each with one 10 ms
delay, and the idle read; the elapsed time is `10 * k`, no read of the line returns busy
after the last delay, and for `k = 0` there is a single read of the line and no delay. -/
theorem wait_until_idle_returns_when_idle (s : Driver) (T k fuel : Nat)
    (hpin : s.busy_pin_ = true)
    (hbusy : ∀ i, i < k → s.busyLevel (s.busyReads + i) = true)
    (hidle : s.busyLevel (s.busyReads + k) = false)
    (hT : T < 2 ^ 32) (hk : 10 * k ≤ T) (hf : k + 1 ≤ fuel) :
    ∃ s1, wait_until_idle_ fuel T s = some s1 ∧
      emitted s s1 = Event.millis ::
        ((List.replicate k (busyPass 10)).flatten ++ [Event.busyRead false]) ∧
      delaysOf (emitted s s1) = List.replicate k 10 ∧
      busyReadsOf (emitted s s1) = List.replicate k true ++ [false] ∧
      sub32 s1.now s.now = 10 * k ∧ sub32 s1.now s.now ≤ T ∧
      (k = 0 → emitted s s1 = [Event.millis, Event.busyRead false]) := by
  obtain ⟨s1, hrun, hst, hel⟩ :=
    pollLoop_idle_after T 10 s.now hT k 0 s.millis.2 hbusy hidle (sub32_self s.now)
      (by omega) fuel hf
  have hst2 := (steps_millis s).trans hst
  have hel2 : sub32 s1.now s.now = 10 * k := by
    rw [hel]
    congr 1
    omega
  refine ⟨s1, ?_, hst2.emitted_eq, ?_, ?_, hel2, by rw [hel2]; exact hk, ?_⟩
  · rw [wait_until_idle_unfold fuel T s hpin]
    exact hrun
  · rw [hst2.emitted_eq]
    show delaysOf ((List.replicate k (busyPass 10)).flatten ++ [Event.busyRead false]) = _
    rw [delaysOf_append, delaysOf_passes]
    exact List.append_nil _
  · rw [hst2.emitted_eq]
    show busyReadsOf ((List.replicate k (busyPass 10)).flatten ++ [Event.busyRead false]) = _
    rw [busyReadsOf_append, busyReadsOf_passes]
    rfl
  · intro h0
    rw [hst2.emitted_eq, h0]
    rfl

theorem wait_until_idle_returns_when_idle_witness :
    ∃ s1, wait_until_idle_ 3 1000
        (setup (fresh true true (fun n => decide (n < 2)) 0)) = some s1 ∧
      delaysOf (emitted (setup (fresh true true (fun n => decide (n < 2)) 0)) s1) =
        List.replicate 2 10 ∧
      sub32 s1.now (setup (fresh true true (fun n => decide (n < 2)) 0)).now = 10 * 2 :=
  (wait_until_idle_returns_when_idle (setup (fresh true true (fun n => decide (n < 2)) 0))
    1000 2 3 rfl
    (fun i hi => by
      show decide (0 + i < 2) = true
      simp
      omega)
    (by decide) (by norm_num) (by norm_num) (by norm_num)).imp
    (fun _ h => ⟨h.1, h.2.2.1, h.2.2.2.2.1⟩)

/-! ## Wraparound of the millisecond counter -/

theorem now_of_sub32 (a b e : Nat) (h : sub32 a b = e) :
    a % 2 ^ 32 = (b + e) % 2 ^ 32 := by
  simp only [sub32] at h
  omega

/-- C19. With the millisecond counter taken modulo `2 ^ 32` and the elapsed time computed
as `(millis() - start) mod 2 ^ 32`, for every start value of the counter and every timeout
`T` with `T + 10 < 2 ^ 32`, `wait_until_idle_(T)` against an always-busy line performs the
same effects as it does from any other start value, 0 in particular: `T / 10 + 1` polls
with a delay, then the timeout, at elapsed time `10 * (T / 10 + 1)`; the counter itself
ends at the start value plus that, wrapped. The wait of `full_update_` likewise makes 51 delays and leaves at
elapsed time 5100 from any start value. -/
theorem wait_until_idle_wraparound (s t : Driver) (T fuel fuel2 : Nat)
    (hpin : s.busy_pin_ = true) (hbusy : ∀ i, s.busyLevel i = true)
    (hpin0 : t.busy_pin_ = true) (hbusy0 : ∀ i, t.busyLevel i = true)
    (hT : T + 10 < 2 ^ 32) (hf : T / 10 + 2 ≤ fuel) (hf2 : 52 ≤ fuel2) :
    (∃ s1 t1, wait_until_idle_ fuel T s = some s1 ∧ wait_until_idle_ fuel T t = some t1 ∧
      emitted s s1 = emitted t t1 ∧
      delaysOf (emitted s s1) = List.replicate (T / 10 + 1) 10 ∧
      sub32 s1.now s.now = sub32 t1.now t.now ∧
      sub32 s1.now s.now = 10 * (T / 10 + 1) ∧
      s1.now % 2 ^ 32 = (s.now + 10 * (T / 10 + 1)) % 2 ^ 32) ∧
    (∃ s2 t2, full_update_ fuel2 s = some s2 ∧ full_update_ fuel2 t = some t2 ∧
      emitted s s2 = emitted t t2 ∧
      delaysOf (emitted s s2) = List.replicate 51 100 ∧
      sub32 s2.now s.now = 5100 ∧ sub32 t2.now t.now = 5100 ∧
      s2.now % 2 ^ 32 = (s.now + 5100) % 2 ^ 32) := by
  have hT2 : 10 * (T / 10 + 1) < 2 ^ 32 := by omega
  constructor
  · obtain ⟨s1, hrun, hst, hel⟩ := wait_until_idle_always_busy s T fuel hpin hbusy hT2 hf
    obtain ⟨t1, hrun0, hst0, hel0⟩ := wait_until_idle_always_busy t T fuel hpin0 hbusy0 hT2 hf
    refine ⟨s1, t1, hrun, hrun0, by rw [hst.emitted_eq, hst0.emitted_eq], ?_,
      by rw [hel, hel0], hel, now_of_sub32 _ _ _ hel⟩
    rw [hst.emitted_eq]
    show delaysOf ((List.replicate (T / 10 + 1) (busyPass 10)).flatten ++
      [Event.busyRead true, Event.millis]) = _
    rw [delaysOf_append, delaysOf_passes]
    exact List.append_nil _
  · obtain ⟨s2, hrun, hst, hel⟩ := full_update_always_busy s fuel2 hpin hbusy hf2
    obtain ⟨t2, hrun0, hst0, hel0⟩ := full_update_always_busy t fuel2 hpin0 hbusy0 hf2
    refine ⟨s2, t2, hrun, hrun0, by rw [hst.emitted_eq, hst0.emitted_eq], ?_, hel, hel0,
      now_of_sub32 _ _ _ hel⟩
    rw [hst.emitted_eq, delaysOf_append]
    show delaysOf ((List.replicate 51 (busyPass 100)).flatten ++
      [Event.busyRead true, Event.millis]) = _
    rw [delaysOf_append, delaysOf_passes]
    exact List.append_nil _

theorem wait_until_idle_wraparound_witness :
    ∃ s1 t1,
      wait_until_idle_ 102 1000 (setup (fresh true true (fun _ => true) 4294967000)) =
        some s1 ∧
      wait_until_idle_ 102 1000 (setup (fresh true true (fun _ => true) 0)) = some t1 ∧
      emitted (setup (fresh true true (fun _ => true) 4294967000)) s1 =
        emitted (setup (fresh true true (fun _ => true) 0)) t1 ∧
      s1.now % 2 ^ 32 = (4294967000 + 10 * (1000 / 10 + 1)) % 2 ^ 32 :=
  (wait_until_idle_wraparound (setup (fresh true true (fun _ => true) 4294967000))
    (setup (fresh true true (fun _ => true) 0)) 1000 102 52
    rfl (fun _ => rfl) rfl (fun _ => rfl) (by norm_num) (by norm_num) (by norm_num)).1.imp
    (fun _ h => h.imp (fun _ g => ⟨g.1, g.2.1, g.2.2.1, g.2.2.2.2.2.2⟩))

/-! ## The hardware reset -/

theorem resetWritesOf_append (a b : List Event) :
    resetWritesOf (a ++ b) = resetWritesOf a ++ resetWritesOf b := by
  induction a with
  | nil => rfl
  | cons e a ih => cases e <;> simp [resetWritesOf, ih]

theorem resetWritesOf_wait (w : List Event) (h : ∀ e ∈ w, isWaitEvent e = true) :
    resetWritesOf w = [] := by
  induction w with
  | nil => rfl
  | cons e w ih =>
    have he := h e (List.mem_cons_self _ _)
    have hw : ∀ e ∈ w, isWaitEvent e = true := fun e he => h e (List.mem_cons_of_mem _ he)
    cases e <;> simp [isWaitEvent] at he <;> simpa [resetWritesOf] using ih hw

theorem hw_reset_no_pin (s : Driver) (h : s.reset_pin_ = false) (fuel : Nat) :
    hw_reset_ fuel s = some s := by
  simp [hw_reset_, h]

/-- With a reset line, `hw_reset_` is the reset pulse followed by one idle wait with the
default timeout. -/
theorem hw_reset_with_pin (s : Driver) (h : s.reset_pin_ = true) (fuel : Nat)
    (hf : 102 ≤ fuel) :
    ∃ sp s1 w, Steps s sp resetPulse ∧
      hw_reset_ fuel s = wait_until_idle_ fuel DEFAULT_TIMEOUT_MS sp ∧
      wait_until_idle_ fuel DEFAULT_TIMEOUT_MS sp = some s1 ∧ Steps sp s1 w ∧
      ∀ e ∈ w, isWaitEvent e = true := by
  have hc : Steps s
      ((((((s.emit (Event.resetWrite true)).delay 10).emit (Event.resetWrite false)).delay
        10).emit (Event.resetWrite true)).delay 10) resetPulse :=
    (steps_emit _ s).trans ((steps_delay _ _).trans ((steps_emit _ _).trans
      ((steps_delay _ _).trans ((steps_emit _ _).trans (steps_delay _ _)))))
  obtain ⟨s1, w, hrun, hsteps, hev⟩ := wait_default_returns
    ((((((s.emit (Event.resetWrite true)).delay 10).emit (Event.resetWrite false)).delay
        10).emit (Event.resetWrite true)).delay 10) fuel hf
  refine ⟨_, s1, w, hc, ?_, hrun, hsteps, hev⟩
  simp only [hw_reset_, h, Bool.not_true, Bool.false_eq_true, if_false]

/-- C13, counterexample. With a reset line configured (and no busy line), the reset-line
writes of `hw_reset_` are high, low, high: not the two writes low, high. -/
theorem hw_reset_writes_high_first :
    ∃ s1, hw_reset_ 102 (setup (fresh true false (fun _ => true) 0)) = some s1 ∧
      resetWritesOf (emitted (setup (fresh true false (fun _ => true) 0)) s1) =
        [true, false, true] ∧
      resetWritesOf (emitted (setup (fresh true false (fun _ => true) 0)) s1) ≠
        [false, true] := by
  obtain ⟨sp, s1, w, hp, heq, hrun, hw, hev⟩ :=
    hw_reset_with_pin (setup (fresh true false (fun _ => true) 0)) rfl 102 (by decide)
  have hres : resetWritesOf (emitted (setup (fresh true false (fun _ => true) 0)) s1) =
      [true, false, true] := by
    rw [(hp.trans hw).emitted_eq, resetWritesOf_append, resetWritesOf_wait w hev]
    rfl
  refine ⟨s1, heq.trans hrun, hres, ?_⟩
  rw [hres]
  decide

/-- C13, amended. With a reset line configured, `hw_reset_` drives the reset line high,
holds for 10 ms, drives it low, holds for 10 ms, drives it high, holds for 10 ms, and
then performs one idle wait with the default 1000 ms timeout: the reset-line writes are
exactly high, low, high, each followed by a 10 ms delay, with the idle wait last. -/
theorem hw_reset_pulse (s : Driver) (h : s.reset_pin_ = true) (fuel : Nat) (hf : 102 ≤ fuel) :
    ∃ sp s1,
      emitted s sp =
        [Event.resetWrite true, Event.delay 10, Event.resetWrite false, Event.delay 10,
         Event.resetWrite true, Event.delay 10] ∧
      wait_until_idle_ fuel 1000 sp = some s1 ∧
      hw_reset_ fuel s = some s1 ∧
      emitted s s1 = emitted s sp ++ emitted sp s1 ∧
      (∀ e ∈ emitted sp s1, isWaitEvent e = true) ∧
      resetWritesOf (emitted s s1) = [true, false, true] := by
  obtain ⟨sp, s1, w, hp, heq, hrun, hw, hev⟩ := hw_reset_with_pin s h fuel hf
  refine ⟨sp, s1, hp.emitted_eq, hrun, heq.trans hrun, ?_, ?_, ?_⟩
  · rw [(hp.trans hw).emitted_eq, hp.emitted_eq, hw.emitted_eq]
  · rw [hw.emitted_eq]
    exact hev
  · rw [(hp.trans hw).emitted_eq, resetWritesOf_append, resetWritesOf_wait w hev]
    rfl

theorem hw_reset_pulse_witness :
    ∃ sp s1,
      emitted (setup (fresh true true (fun _ => true) 0)) sp =
        [Event.resetWrite true, Event.delay 10, Event.resetWrite false, Event.delay 10,
         Event.resetWrite true, Event.delay 10] ∧
      wait_until_idle_ 102 1000 sp = some s1 ∧
      hw_reset_ 102 (setup (fresh true true (fun _ => true) 0)) = some s1 :=
  (hw_reset_pulse (setup (fresh true true (fun _ => true) 0)) rfl 102 (by decide)).imp
    (fun _ h => h.imp (fun _ g => ⟨g.1, g.2.1, g.2.2.1⟩))

/-- C12. Without a reset line `hw_reset_` returns the state, effect log included,
unchanged: no pin write, no delay, no idle wait. `init_display_` then starts with the
software reset: its first effects are those of `command_(0x12)`, and its bus transactions
are the same initialization sequence, starting with command 0x12, that it emits when a
reset line is present (where its effects start with the reset pulse instead). -/
theorem init_display_without_reset_pin (s t : Driver) (h : s.reset_pin_ = false)
    (ht : t.reset_pin_ = true) (fuel : Nat) (hf : 102 ≤ fuel) :
    (∀ f, hw_reset_ f s = some s) ∧
    ∃ s1 t1 rest rest1, init_display_ fuel s = some s1 ∧ init_display_ fuel t = some t1 ∧
      emitted s s1 =
        [Event.dcWrite false, Event.enable, Event.writeByte 0x12, Event.disable] ++ rest ∧
      emitted t t1 = resetPulse ++ rest1 ∧
      (∀ dc dc1, busTrace dc (emitted s s1) = busTrace dc1 (emitted t t1)) ∧
      (∀ dc, busTrace dc (emitted s s1) = initTxns) ∧
      initTxns.head? = some (Txn.command 0x12) := by
  refine ⟨hw_reset_no_pin s h, ?_⟩
  obtain ⟨s1, w0, w1, w2, hrun, hst, hw0, hw1, hw2, hnr⟩ := init_display_returns s fuel hf
  obtain ⟨t1, v0, v1, v2, hrunt, hstt, -, -, -, -⟩ := init_display_returns t fuel hf
  obtain ⟨s1b, evs, hrunb, hstb, hb⟩ := init_display_bus s fuel hf
  obtain ⟨t1b, evt, hruntb, hsttb, hbt⟩ := init_display_bus t fuel hf
  have hsame : s1b = s1 := Option.some.inj (hrunb.symm.trans hrun)
  have hsamet : t1b = t1 := Option.some.inj (hruntb.symm.trans hrunt)
  subst hsame
  subst hsamet
  refine ⟨s1b, t1b, Event.delay 10 :: (w1 ++ (initRegisterEvents ++ w2)),
    v0 ++ (commandEvents 0x12 ++ (Event.delay 10 :: (v1 ++ (initRegisterEvents ++ v2)))),
    hrun, hrunt, ?_, ?_, ?_, ?_, rfl⟩
  · rw [hst.emitted_eq, hnr h, h]
    rfl
  · rw [hstt.emitted_eq, ht]
    simp only [if_true, List.append_assoc]
  · intro dc dc1
    rw [hstb.emitted_eq, hsttb.emitted_eq, hb, hbt]
  · intro dc
    rw [hstb.emitted_eq, hb]

theorem init_display_without_reset_pin_witness :
    ∃ s1 t1 rest rest1,
      init_display_ 102 (setup (fresh false true (fun _ => true) 0)) = some s1 ∧
      init_display_ 102 (setup (fresh true true (fun _ => true) 0)) = some t1 ∧
      emitted (setup (fresh false true (fun _ => true) 0)) s1 =
        [Event.dcWrite false, Event.enable, Event.writeByte 0x12, Event.disable] ++ rest ∧
      emitted (setup (fresh true true (fun _ => true) 0)) t1 = resetPulse ++ rest1 ∧
      ∀ dc dc1, busTrace dc (emitted (setup (fresh false true (fun _ => true) 0)) s1) =
        busTrace dc1 (emitted (setup (fresh true true (fun _ => true) 0)) t1) :=
  (init_display_without_reset_pin (setup (fresh false true (fun _ => true) 0))
    (setup (fresh true true (fun _ => true) 0)) rfl rfl 102 (by decide)).2.imp
    (fun _ h => h.imp (fun _ g => g.imp (fun _ k => k.imp
      (fun _ m => ⟨m.1, m.2.1, m.2.2.1, m.2.2.2.1, m.2.2.2.2.1⟩))))

/-! ## The bus does not depend on the busy line -/

/-- C11. Two runs of `update()` from states with the same buffer and the same
`initialized_` flag, whatever the wiring of the busy line, the levels it shows and the
value of the clock in each, both return, emit the same bus transactions (the
initialization sequence if the flag was unset, then one frame transfer and one refresh
trigger, nothing left out and nothing repeated), and end with the same buffer and the
same flag. -/
theorem update_independent_of_busy (s t : Driver) (draws : List PixelWrite) (fuel : Nat)
    (hf : 102 ≤ fuel) (hbuf : s.buffer_ = t.buffer_)
    (hinit : s.initialized_ = t.initialized_) :
    ∃ s1 t1, update fuel draws s = some s1 ∧ update fuel draws t = some t1 ∧
      (∀ dc dc1, busTrace dc (emitted s s1) = busTrace dc1 (emitted t t1)) ∧
      (∀ dc, busTrace dc (emitted s s1) =
        (if s.initialized_ then [] else initTxns) ++ frameTxns s1.buffer_) ∧
      s1.buffer_ = t1.buffer_ ∧ s1.initialized_ = t1.initialized_ := by
  obtain ⟨s1, es, hrun, hi, hb, hr, hbus⟩ := update_returns s fuel hf draws
  obtain ⟨t1, et, hrunt, hit, hbt, hrt, hbust⟩ := update_returns t fuel hf draws
  have hd : (do_update_ draws s).buffer_ = (do_update_ draws t).buffer_ :=
    do_update_buffer_congr draws s t hbuf
  refine ⟨s1, t1, hrun, hrunt, ?_, ?_, ?_, hi.trans hit.symm⟩
  · intro dc dc1
    rw [hr.runs_emitted_eq, hrt.runs_emitted_eq, hbus, hbust, hd, hinit]
  · intro dc
    rw [hr.runs_emitted_eq, hbus, hb]
  · rw [hb, hbt, hd]

theorem update_independent_of_busy_witness :
    ∃ s1 t1,
      update 102 [⟨5, 7, true⟩] (setup (fresh true true (fun _ => true) 0)) = some s1 ∧
      update 102 [⟨5, 7, true⟩] (setup (fresh true false (fun _ => false) 99)) = some t1 ∧
      (∀ dc dc1, busTrace dc (emitted (setup (fresh true true (fun _ => true) 0)) s1) =
        busTrace dc1 (emitted (setup (fresh true false (fun _ => false) 99)) t1)) ∧
      s1.buffer_ = t1.buffer_ ∧ s1.initialized_ = t1.initialized_ :=
  (update_independent_of_busy (setup (fresh true true (fun _ => true) 0))
    (setup (fresh true false (fun _ => false) 99)) [⟨5, 7, true⟩] 102 (by decide)
    (by rw [setup_buffer_eq, setup_buffer_eq]) rfl).imp
    (fun _ h => h.imp (fun _ g => ⟨g.1, g.2.1, g.2.2.1, g.2.2.2.2.1, g.2.2.2.2.2⟩))

/-! ## Geometry programmed by init_display_ -/

theorem dataAfter_frameTxns_length (buf : List Nat) :
    (dataAfter 0x24 (frameTxns buf)).length = ALLSCREEN_BYTES := by
  have h1 : dataAfter 0x24 (frameTxns buf) = dataRun (streamTxns buf ++ refreshTxns) := by
    simp [frameTxns, framePrefix, dataAfter]
  have h2 : streamTxns buf =
      ((List.range ALLSCREEN_BYTES).map (fun i => not8 (buf.getD i 0))).map Txn.data := by
    unfold streamTxns
    rw [List.map_map]
    rfl
  rw [h1, h2]
  have h3 := dataRun_map_data
    ((List.range ALLSCREEN_BYTES).map (fun i => not8 (buf.getD i 0))) 0x22
    [Txn.data 0xF7, Txn.command 0x20]
  rw [show refreshTxns = Txn.command 0x22 :: [Txn.data 0xF7, Txn.command 0x20] from rfl, h3,
    List.length_map, List.length_range]

/-- C16. The payload `init_display_` sends after command 0x01 is 0x27, 0x01, 0x00, after
0x44 it is 0x00, 0x0F and after 0x45 it is 0x00, 0x00, 0x27, 0x01. Read low byte first,
0x27, 0x01 is `HEIGHT - 1 = 295`; 0x0F is `WIDTH / 8 - 1 = 15`; both window starts are 0;
the window holds `(15 - 0 + 1) * (295 - 0 + 1) = 4736` bytes, which is `ALLSCREEN_BYTES`
and the number of data bytes `display_frame_` sends after command 0x24. -/
theorem init_display_geometry (s : Driver) (fuel : Nat) (hf : 102 ≤ fuel) :
    ∃ s1 s2, init_display_ fuel s = some s1 ∧ display_frame_ fuel s = some s2 ∧
      ∀ dc,
        dataAfter 0x01 (busTrace dc (emitted s s1)) = [0x27, 0x01, 0x00] ∧
        dataAfter 0x44 (busTrace dc (emitted s s1)) = [0x00, 0x0F] ∧
        dataAfter 0x45 (busTrace dc (emitted s s1)) = [0x00, 0x00, 0x27, 0x01] ∧
        le16 0x27 0x01 = HEIGHT - 1 ∧ HEIGHT - 1 = 295 ∧
        0x0F = WIDTH / 8 - 1 ∧ WIDTH / 8 - 1 = 15 ∧
        le16 0x00 0x00 = 0 ∧
        (0x0F - 0x00 + 1) * (le16 0x27 0x01 - le16 0x00 0x00 + 1) = 4736 ∧
        ALLSCREEN_BYTES = 4736 ∧
        (dataAfter 0x24 (busTrace dc (emitted s s2))).length =
          (0x0F - 0x00 + 1) * (le16 0x27 0x01 - le16 0x00 0x00 + 1) := by
  obtain ⟨s1, e1, hrun1, hst1, hb1⟩ := init_display_bus s fuel hf
  obtain ⟨s2, e2, hrun2, hst2, hb2⟩ := display_frame_bus s fuel hf
  refine ⟨s1, s2, hrun1, hrun2, ?_⟩
  intro dc
  rw [hst1.emitted_eq, hst2.emitted_eq, hb1, hb2, dataAfter_frameTxns_length]
  exact ⟨by decide, by decide, by decide, by decide, by decide, by decide, by decide,
    by decide, by decide, by decide, by decide⟩

theorem init_display_geometry_witness :
    ∃ s1 s2, init_display_ 102 (setup (fresh true true (fun _ => true) 0)) = some s1 ∧
      display_frame_ 102 (setup (fresh true true (fun _ => true) 0)) = some s2 ∧
      dataAfter 0x45 (busTrace false (emitted (setup (fresh true true (fun _ => true) 0)) s1)) =
        [0x00, 0x00, 0x27, 0x01] ∧
      (dataAfter 0x24
        (busTrace false (emitted (setup (fresh true true (fun _ => true) 0)) s2))).length =
          (0x0F - 0x00 + 1) * (le16 0x27 0x01 - le16 0x00 0x00 + 1) :=
  (init_display_geometry (setup (fresh true true (fun _ => true) 0)) 102 (by decide)).imp
    (fun _ h => h.imp (fun _ g =>
      ⟨g.1, g.2.1, (g.2.2 false).2.2.1, (g.2.2 false).2.2.2.2.2.2.2.2.2.2⟩))

/-! ## Frame of a pixel write and range of the buffer index -/

theorem pixel_address_injective (x y x1 y1 : Nat) (hx : x < 128) (hy : y < 296)
    (hx1 : x1 < 128) (hy1 : y1 < 296)
    (h : (pixelPos (x1 : Int) (y1 : Int), pixelBit (x1 : Int)) =
      (pixelPos (x : Int) (y : Int), pixelBit (x : Int))) :
    (x1, y1) = (x, y) := by
  have hp := congrArg Prod.fst h
  have hb := congrArg Prod.snd h
  simp only at hp hb
  rw [pixelPos_eq x1 y1 hx1 hy1, pixelPos_eq x y hx hy] at hp
  rw [pixelBit_eq, pixelBit_eq, shift_eq_pow _ (Nat.mod_lt _ (by norm_num)),
    shift_eq_pow _ (Nat.mod_lt _ (by norm_num))] at hb
  have hk : 7 - x1 % 8 = 7 - x % 8 := Nat.pow_right_injective (le_refl 2) hb
  have hxx : x1 = x := by omega
  have hyy : y1 = y := by omega
  rw [hxx, hyy]

theorem draw_byte_lt (s : Driver) (x y : Nat) (c : Bool)
    (hlen : s.buffer_.length = 4736) (hx : x < 128) (hy : y < 296) :
    (draw_absolute_pixel_internal (x : Int) (y : Int) c s).buffer_.getD (16 * y + x / 8) 0
      < 256 := by
  rw [draw_in_bounds_buffer s x y c hx hy, getD_set_self _ _ _ (by omega)]
  cases c
  · simp only [Bool.false_eq_true, if_false]
    exact Nat.mod_lt _ (by norm_num)
  · simp only [if_true]
    exact Nat.mod_lt _ (by norm_num)

theorem draw_other_bits_of_byte (s : Driver) (x y : Nat) (c : Bool)
    (hlen : s.buffer_.length = 4736) (hx : x < 128) (hy : y < 296) (j : Nat) (hj : j < 8)
    (hne : j ≠ 7 - x % 8) :
    ((draw_absolute_pixel_internal (x : Int) (y : Int) c s).buffer_.getD
        (16 * y + x / 8) 0).testBit j =
      (s.buffer_.getD (16 * y + x / 8) 0).testBit j := by
  have hne2 : ¬ (7 - x % 8 = j) := fun h => hne h.symm
  rw [draw_in_bounds_buffer s x y c hx hy, getD_set_self _ _ _ (by omega),
    shift_eq_pow _ (Nat.mod_lt _ (by norm_num))]
  cases c
  · simp only [Bool.false_eq_true, if_false]
    rw [testBit_set _ _ _ hj]
    simp [hne2]
  · simp only [if_true]
    rw [testBit_clear _ _ _ hj]
    simp [hne2]

/-- C17. For a 4736-byte buffer, either colour and an in-bounds pixel `(x, y)`, the write
leaves the buffer length unchanged, every byte at an index other than `16*y + x/8`
unchanged, and the seven bits of byte `16*y + x/8` other than bit `7 - x mod 8` (the bit of
the mask `0x80 >> (x mod 8)`) unchanged, and touches nothing but the buffer; distinct
in-bounds pixels have distinct (byte index, mask) pairs, and the write leaves the bit of
every other in-bounds pixel as it was. -/
theorem draw_absolute_pixel_internal_frame (s : Driver) (x y : Nat) (c : Bool)
    (hlen : s.buffer_.length = 4736) (hx : x < 128) (hy : y < 296) :
    (draw_absolute_pixel_internal (x : Int) (y : Int) c s).buffer_.length =
      s.buffer_.length ∧
    (∀ i, i ≠ 16 * y + x / 8 →
      (draw_absolute_pixel_internal (x : Int) (y : Int) c s).buffer_.getD i 0 =
        s.buffer_.getD i 0) ∧
    0x80 >>> (x % 8) = 2 ^ (7 - x % 8) ∧
    (∀ j, j < 8 → j ≠ 7 - x % 8 →
      ((draw_absolute_pixel_internal (x : Int) (y : Int) c s).buffer_.getD
          (16 * y + x / 8) 0).testBit j =
        (s.buffer_.getD (16 * y + x / 8) 0).testBit j) ∧
    (draw_absolute_pixel_internal (x : Int) (y : Int) c s).buffer_.getD (16 * y + x / 8) 0
      < 256 ∧
    draw_absolute_pixel_internal (x : Int) (y : Int) c s =
      { s with buffer_ := (draw_absolute_pixel_internal (x : Int) (y : Int) c s).buffer_ } ∧
    (∀ x1 y1 : Nat, x1 < 128 → y1 < 296 →
      (pixelPos (x1 : Int) (y1 : Int), pixelBit (x1 : Int)) =
        (pixelPos (x : Int) (y : Int), pixelBit (x : Int)) → (x1, y1) = (x, y)) ∧
    (∀ x1 y1 : Nat, x1 < 128 → y1 < 296 → (x1, y1) ≠ (x, y) →
      pixelBitOf (draw_absolute_pixel_internal (x : Int) (y : Int) c s).buffer_ x1 y1 =
        pixelBitOf s.buffer_ x1 y1) := by
  refine ⟨draw_buffer_length s _ _ c, ?_, shift_eq_pow _ (Nat.mod_lt _ (by norm_num)),
    fun j hj hne => draw_other_bits_of_byte s x y c hlen hx hy j hj hne,
    draw_byte_lt s x y c hlen hx hy, draw_eq_with_buffer _ _ c s,
    fun x1 y1 hx1 hy1 h => pixel_address_injective x y x1 y1 hx hy hx1 hy1 h, ?_⟩
  · intro i hi
    rw [draw_in_bounds_buffer s x y c hx hy, getD_set_ne _ _ _ _ (fun h => hi h.symm)]
  · intro x1 y1 hx1 hy1 hne
    apply draw_other_bit s x1 y1 (x : Int) (y : Int) c hlen hx1 hy1
    intro h
    apply hne
    have h1 : x = x1 := by exact_mod_cast h.1
    have h2 : y = y1 := by exact_mod_cast h.2
    rw [h1, h2]

theorem draw_absolute_pixel_internal_frame_witness :
    (draw_absolute_pixel_internal ((9 : Nat) : Int) ((2 : Nat) : Int) true
        (setup (fresh true true (fun _ => true) 0))).buffer_.length =
      (setup (fresh true true (fun _ => true) 0)).buffer_.length ∧
    ∀ i, i ≠ 16 * 2 + 9 / 8 →
      (draw_absolute_pixel_internal ((9 : Nat) : Int) ((2 : Nat) : Int) true
          (setup (fresh true true (fun _ => true) 0))).buffer_.getD i 0 =
        (setup (fresh true true (fun _ => true) 0)).buffer_.getD i 0 :=
  ⟨(draw_absolute_pixel_internal_frame (setup (fresh true true (fun _ => true) 0)) 9 2 true
      (setup_buffer_length _) (by decide) (by decide)).1,
   (draw_absolute_pixel_internal_frame (setup (fresh true true (fun _ => true) 0)) 9 2 true
      (setup_buffer_length _) (by decide) (by decide)).2.1⟩

theorem updates_buffer_length (fuel : Nat) (hf : 102 ≤ fuel) (frames : List (List PixelWrite))
    (s : Driver) :
    ∃ s1, updates fuel frames s = some s1 ∧ s1.buffer_.length = s.buffer_.length := by
  induction frames generalizing s with
  | nil => exact ⟨s, rfl, rfl⟩
  | cons d ds ih =>
    obtain ⟨sa, e0, hrun0, -, hbuf0, -, -⟩ := update_returns s fuel hf d
    obtain ⟨sb, hrun1, hlen1⟩ := ih sa
    refine ⟨sb, ?_, ?_⟩
    · simp only [updates, hrun0, Option.some_bind]
      exact hrun1
    · rw [hlen1, hbuf0, do_update_buffer_length]

/-- C18. For every pixel that passes the bounds check, the computed position
`y * 16 + x / 8` is below `ALLSCREEN_BYTES = 4736`, so the guard `pos >= ALLSCREEN_BYTES`
is not taken and the write happens at that position; the buffer allocated by `setup()` has
4736 bytes and keeps that length through pixel writes and `update` calls, so the position
written by `draw_absolute_pixel_internal` and every index `i < 4736` read by the loop of
`display_frame_` lies inside the buffer. -/
theorem buffer_index_in_range (s0 : Driver) (x y : Nat) (c : Bool) (fuel : Nat)
    (frames : List (List PixelWrite)) (hx : x < 128) (hy : y < 296) (hf : 102 ≤ fuel) :
    pixelPos (x : Int) (y : Int) = y * 16 + x / 8 ∧
    pixelPos (x : Int) (y : Int) < ALLSCREEN_BYTES ∧
    ALLSCREEN_BYTES = 4736 ∧
    ¬ (pixelPos (x : Int) (y : Int) ≥ ALLSCREEN_BYTES) ∧
    (∀ s : Driver, (draw_absolute_pixel_internal (x : Int) (y : Int) c s).buffer_ =
      s.buffer_.set (pixelPos (x : Int) (y : Int))
        (if c then (s.buffer_.getD (pixelPos (x : Int) (y : Int)) 0 &&&
            not8 (pixelBit (x : Int))) % 256
         else (s.buffer_.getD (pixelPos (x : Int) (y : Int)) 0 ||| pixelBit (x : Int)) % 256)) ∧
    (setup s0).buffer_.length = 4736 ∧
    (∃ s1, updates fuel frames (setup s0) = some s1 ∧ s1.buffer_.length = 4736 ∧
      pixelPos (x : Int) (y : Int) < s1.buffer_.length ∧
      (∀ i ∈ List.range ALLSCREEN_BYTES, i < s1.buffer_.length) ∧
      (∀ draws, pixelPos (x : Int) (y : Int) < (do_update_ draws s1).buffer_.length)) := by
  have hpos := pixelPos_eq x y hx hy
  have hA := ALLSCREEN_BYTES_eq
  refine ⟨by rw [hpos]; ring, by rw [hpos, hA]; omega, hA, by rw [hpos, hA]; omega, ?_,
    setup_buffer_length s0, ?_⟩
  · intro s
    rw [hpos, pixelBit_eq]
    exact draw_in_bounds_buffer s x y c hx hy
  · obtain ⟨s1, hrun, hlen⟩ := updates_buffer_length fuel hf frames (setup s0)
    rw [setup_buffer_length] at hlen
    refine ⟨s1, hrun, hlen, by rw [hpos, hlen]; omega, ?_, ?_⟩
    · intro i hi
      rw [List.mem_range, hA] at hi
      rw [hlen]
      exact hi
    · intro draws
      rw [do_update_buffer_length, hpos, hlen]
      omega

theorem buffer_index_in_range_witness :
    pixelPos ((127 : Nat) : Int) ((295 : Nat) : Int) < ALLSCREEN_BYTES ∧
    ∃ s1, updates 102 [[⟨127, 295, true⟩]] (setup (fresh true true (fun _ => true) 0)) =
        some s1 ∧ s1.buffer_.length = 4736 :=
  ⟨(buffer_index_in_range (fresh true true (fun _ => true) 0) 127 295 true 102
      [[⟨127, 295, true⟩]] (by decide) (by decide) (by decide)).2.1,
   (buffer_index_in_range (fresh true true (fun _ => true) 0) 127 295 true 102
      [[⟨127, 295, true⟩]] (by decide) (by decide) (by decide)).2.2.2.2.2.2.imp
      (fun _ h => ⟨h.1, h.2.1⟩)⟩

/-! ## Framing of bus transactions -/

theorem framed_nil : Framed [] :=
  ⟨[], rfl⟩

theorem framed_append {a b : List Event} (ha : Framed a) (hb : Framed b) : Framed (a ++ b) := by
  obtain ⟨ta, hta⟩ := ha
  obtain ⟨tb, htb⟩ := hb
  refine ⟨ta ++ tb, ?_⟩
  rw [List.filter_append, hta, htb, List.flatMap_append]

theorem framed_command (c : Nat) : Framed (commandEvents c) :=
  ⟨[Txn.command c], rfl⟩

theorem framed_data (d : Nat) : Framed (dataEvents d) :=
  ⟨[Txn.data d], rfl⟩

theorem filter_bus_of_wait (w : List Event) (h : ∀ e ∈ w, isWaitEvent e = true) :
    w.filter isBusEvent = [] := by
  induction w with
  | nil => rfl
  | cons e w ih =>
    have he := h e (List.mem_cons_self _ _)
    have hw : ∀ e ∈ w, isWaitEvent e = true := fun e he => h e (List.mem_cons_of_mem _ he)
    cases e <;> simp [isWaitEvent] at he <;> simpa [isBusEvent] using ih hw

theorem framed_wait (w : List Event) (h : ∀ e ∈ w, isWaitEvent e = true) : Framed w :=
  ⟨[], filter_bus_of_wait w h⟩

theorem framed_resetPulse : Framed resetPulse :=
  ⟨[], rfl⟩

theorem framed_stream (buf : List Nat) (l : List Nat) : Framed (streamEvents buf l) := by
  induction l with
  | nil => exact framed_nil
  | cons i l ih =>
    have h : streamEvents buf (i :: l) =
        dataEvents (not8 (buf.getD i 0)) ++ streamEvents buf l := rfl
    rw [h]
    exact framed_append (framed_data _) ih

theorem framed_initRegisters : Framed initRegisterEvents :=
  ⟨initTxns.tail, rfl⟩

theorem framed_framePrefix : Framed framePrefixEvents :=
  ⟨framePrefix, rfl⟩

theorem countP_dcWrite_filter (evs : List Event) :
    (evs.filter isBusEvent).countP isDcWrite = evs.countP isDcWrite := by
  induction evs with
  | nil => rfl
  | cons e evs ih => cases e <;> simp [isBusEvent, isDcWrite, List.filter_cons, ih]

theorem countP_writeByte_filter (evs : List Event) :
    (evs.filter isBusEvent).countP isWriteByte = evs.countP isWriteByte := by
  induction evs with
  | nil => rfl
  | cons e evs ih => cases e <;> simp [isBusEvent, isWriteByte, List.filter_cons, ih]

theorem countP_dcWrite_frames (txns : List Txn) :
    (txns.flatMap frameOf).countP isDcWrite = txns.length := by
  induction txns with
  | nil => rfl
  | cons t txns ih =>
    rw [List.flatMap_cons, List.countP_append, ih, List.length_cons, Nat.add_comm]
    cases t <;> rfl

theorem countP_writeByte_frames (txns : List Txn) :
    (txns.flatMap frameOf).countP isWriteByte = txns.length := by
  induction txns with
  | nil => rfl
  | cons t txns ih =>
    rw [List.flatMap_cons, List.countP_append, ih, List.length_cons, Nat.add_comm]
    cases t <;> rfl

theorem busTrace_filter (evs : List Event) (dc : Bool) :
    busTrace dc (evs.filter isBusEvent) = busTrace dc evs := by
  induction evs generalizing dc with
  | nil => rfl
  | cons e evs ih => cases e <;> simp [isBusEvent, List.filter_cons, busTrace, ih]

theorem busTrace_frames (txns : List Txn) (dc : Bool) :
    busTrace dc (txns.flatMap frameOf) = txns := by
  induction txns generalizing dc with
  | nil => rfl
  | cons t txns ih =>
    rw [List.flatMap_cons]
    cases t with
    | command b =>
      show busTrace dc (commandEvents b ++ _) = _
      rw [busTrace_command, ih]
    | data b =>
      show busTrace dc (dataEvents b ++ _) = _
      rw [busTrace_data, ih]

/-- In a framed log the data/command line is written once per transmitted byte, and the
transactions are those the bus projection reads off. -/
theorem framed_counts (evs : List Event) (h : Framed evs) :
    evs.countP isDcWrite = evs.countP isWriteByte ∧
    ∀ dc, evs.filter isBusEvent = (busTrace dc evs).flatMap frameOf := by
  obtain ⟨txns, ht⟩ := h
  constructor
  · rw [← countP_dcWrite_filter, ← countP_writeByte_filter, ht, countP_dcWrite_frames,
      countP_writeByte_frames]
  · intro dc
    rw [← busTrace_filter, ht, busTrace_frames]

theorem framed_reset_part (p : Bool) (w : List Event) (h : ∀ e ∈ w, isWaitEvent e = true) :
    Framed ((if p then resetPulse else []) ++ w) := by
  cases p
  · exact framed_append framed_nil (framed_wait w h)
  · exact framed_append framed_resetPulse (framed_wait w h)

theorem wait_framed (s : Driver) (fuel : Nat) (hf : 102 ≤ fuel) :
    ∃ s1 evs, wait_until_idle_ fuel DEFAULT_TIMEOUT_MS s = some s1 ∧ Steps s s1 evs ∧
      Framed evs := by
  obtain ⟨s1, w, hrun, hst, hw⟩ := wait_default_returns s fuel hf
  exact ⟨s1, w, hrun, hst, framed_wait w hw⟩

theorem hw_reset_framed (s : Driver) (fuel : Nat) (hf : 102 ≤ fuel) :
    ∃ s1 evs, hw_reset_ fuel s = some s1 ∧ Steps s s1 evs ∧ Framed evs := by
  obtain ⟨s1, w, hrun, hst, hw, -⟩ := hw_reset_returns s fuel hf
  exact ⟨s1, _, hrun, hst, framed_reset_part _ w hw⟩

theorem init_display_framed (s : Driver) (fuel : Nat) (hf : 102 ≤ fuel) :
    ∃ s1 evs, init_display_ fuel s = some s1 ∧ Steps s s1 evs ∧ Framed evs := by
  obtain ⟨s1, w0, w1, w2, hrun, hst, hw0, hw1, hw2, -⟩ := init_display_returns s fuel hf
  refine ⟨s1, _, hrun, hst, ?_⟩
  have hd : ∀ r : List Event, Framed r → Framed (Event.delay 10 :: r) :=
    fun r h => framed_append (a := [Event.delay 10]) ⟨[], rfl⟩ h
  exact framed_append (framed_reset_part _ w0 hw0)
    (framed_append (framed_command _)
      (hd _ (framed_append (framed_wait w1 hw1)
        (framed_append framed_initRegisters (framed_wait w2 hw2)))))

theorem full_update_framed (s : Driver) (fuel : Nat) (hf : 52 ≤ fuel) :
    ∃ s1 evs, full_update_ fuel s = some s1 ∧ Steps s s1 evs ∧ Framed evs := by
  obtain ⟨s1, w, hrun, hst, hw⟩ := full_update_returns s fuel hf
  exact ⟨s1, _, hrun, hst, framed_append (framed_command _)
    (framed_append (framed_data _) (framed_append (framed_command _) (framed_wait w hw)))⟩

theorem display_frame_framed (s : Driver) (fuel : Nat) (hf : 102 ≤ fuel) :
    ∃ s1 evs, display_frame_ fuel s = some s1 ∧ Steps s s1 evs ∧ Framed evs := by
  obtain ⟨s1, w1, w2, hrun, hst, hw1, hw2⟩ := display_frame_returns s fuel hf
  exact ⟨s1, _, hrun, hst, framed_append framed_framePrefix
    (framed_append (framed_stream _ _) (framed_append (framed_wait w1 hw1)
      (framed_append (framed_command _) (framed_append (framed_data _)
        (framed_append (framed_command _) (framed_wait w2 hw2))))))⟩

theorem update_framed (s : Driver) (fuel : Nat) (hf : 102 ≤ fuel) (draws : List PixelWrite) :
    ∃ s1 evs, update fuel draws s = some s1 ∧ s1.trace = s.trace ++ evs ∧ Framed evs := by
  cases hinit : s.initialized_
  · obtain ⟨sa, e0, hrun0, hst0, hf0⟩ := init_display_framed s fuel hf
    obtain ⟨sb, e1, hrun1, hst1, hf1⟩ :=
      display_frame_framed (do_update_ draws { sa with initialized_ := true }) fuel hf
    obtain ⟨ht, -, -, -, -⟩ := do_update_frame draws { sa with initialized_ := true }
    refine ⟨sb, e0 ++ e1, ?_, ?_, framed_append hf0 hf1⟩
    · rw [update_unfold]
      simp only [hinit, Bool.not_false, if_true, hrun0, Option.map_some', Option.some_bind]
      exact hrun1
    · rw [hst1.trace_eq, ht, ← List.append_assoc]
      exact congrArg (· ++ e1) hst0.trace_eq
  · obtain ⟨sb, e1, hrun1, hst1, hf1⟩ := display_frame_framed (do_update_ draws s) fuel hf
    obtain ⟨ht, -, -, -, -⟩ := do_update_frame draws s
    refine ⟨sb, e1, ?_, ?_, hf1⟩
    · rw [update_unfold]
      simp only [hinit, Bool.not_true, Bool.false_eq_true, if_false, Option.some_bind]
      exact hrun1
    · rw [hst1.trace_eq, ht]

theorem runOp_framed (fuel : Nat) (hf : 102 ≤ fuel) (op : Op) (s : Driver) :
    ∃ s1 evs, runOp fuel op s = some s1 ∧ s1.trace = s.trace ++ evs ∧ Framed evs := by
  cases op with
  | command b => exact ⟨_, _, rfl, (steps_command b s).trace_eq, framed_command b⟩
  | data b => exact ⟨_, _, rfl, (steps_data b s).trace_eq, framed_data b⟩
  | wait_until_idle =>
    obtain ⟨s1, evs, hrun, hst, hfr⟩ := wait_framed s fuel hf
    exact ⟨s1, evs, hrun, hst.trace_eq, hfr⟩
  | hw_reset =>
    obtain ⟨s1, evs, hrun, hst, hfr⟩ := hw_reset_framed s fuel hf
    exact ⟨s1, evs, hrun, hst.trace_eq, hfr⟩
  | init_display =>
    obtain ⟨s1, evs, hrun, hst, hfr⟩ := init_display_framed s fuel hf
    exact ⟨s1, evs, hrun, hst.trace_eq, hfr⟩
  | full_update =>
    obtain ⟨s1, evs, hrun, hst, hfr⟩ := full_update_framed s fuel (by omega)
    exact ⟨s1, evs, hrun, hst.trace_eq, hfr⟩
  | display_frame =>
    obtain ⟨s1, evs, hrun, hst, hfr⟩ := display_frame_framed s fuel hf
    exact ⟨s1, evs, hrun, hst.trace_eq, hfr⟩
  | update draws => exact update_framed s fuel hf draws
  | draw x y c =>
    refine ⟨_, [], rfl, ?_, framed_nil⟩
    rw [draw_eq_with_buffer x y c s, List.append_nil]

theorem runOps_framed (fuel : Nat) (hf : 102 ≤ fuel) (ops : List Op) (s : Driver) :
    ∃ s1 evs, runOps fuel ops s = some s1 ∧ s1.trace = s.trace ++ evs ∧ Framed evs := by
  induction ops generalizing s with
  | nil => exact ⟨s, [], rfl, (List.append_nil _).symm, framed_nil⟩
  | cons op ops ih =>
    obtain ⟨sa, e0, hrun0, ht0, hf0⟩ := runOp_framed fuel hf op s
    obtain ⟨sb, e1, hrun1, ht1, hf1⟩ := ih sa
    refine ⟨sb, e0 ++ e1, ?_, ?_, framed_append hf0 hf1⟩
    · simp only [runOps, hrun0, Option.some_bind]
      exact hrun1
    · rw [ht1, ht0, List.append_assoc]

theorem emitted_of_trace {s s1 : Driver} {evs : List Event} (h : s1.trace = s.trace ++ evs) :
    emitted s s1 = evs := by
  unfold emitted
  rw [h, List.drop_left]

theorem setup_trace (s : Driver) :
    (setup s).trace = s.trace ++ setupEvents s.reset_pin_ s.busy_pin_ := by
  cases hr : s.reset_pin_ <;> cases hb : s.busy_pin_ <;>
    simp [setup, Driver.emit, hr, hb, setupEvents]

theorem setup_emitted_bus (s : Driver) :
    (emitted s (setup s)).filter isBusEvent = [Event.dcWrite false] := by
  rw [emitted_of_trace (setup_trace s)]
  cases s.reset_pin_ <;> cases s.busy_pin_ <;> rfl

/-- C14, counterexample. The log of `setup()` holds one write of the data/command line and
no transmitted byte. -/
theorem setup_writes_dc_without_byte :
    (emitted (fresh true true (fun _ => true) 0)
      (setup (fresh true true (fun _ => true) 0))).countP isDcWrite = 1 ∧
    (emitted (fresh true true (fun _ => true) 0)
      (setup (fresh true true (fun _ => true) 0))).countP isWriteByte = 0 := by
  rw [emitted_of_trace (setup_trace (fresh true true (fun _ => true) 0))]
  exact ⟨rfl, rfl⟩

/-- C14, amended. `command_(b)` performs exactly: data/command line low, chip-select begin,
transmit `b`, chip-select end; `data_(b)` the same with the line high. In the log of any
sequence of the operations that follow `setup()` (`command_`, `data_`, `wait_until_idle_`,
`hw_reset_`, `init_display_`, `full_update_`, `display_frame_`, `update`, pixel writes), the
bus effects are exactly one such group of four per transmitted byte, so the data/command
line is written once per byte, before the chip-select begin and never between a
chip-select begin and its end. `setup()` writes the line once, low, with no chip-select
and no byte. -/
theorem command_data_framing (fuel : Nat) (hf : 102 ≤ fuel) (ops : List Op) (s : Driver)
    (b : Nat) :
    emitted s (command_ b s) =
      [Event.dcWrite false, Event.enable, Event.writeByte b, Event.disable] ∧
    emitted s (data_ b s) =
      [Event.dcWrite true, Event.enable, Event.writeByte b, Event.disable] ∧
    (∃ s1, runOps fuel ops s = some s1 ∧
      (∀ dc, (emitted s s1).filter isBusEvent = (busTrace dc (emitted s s1)).flatMap frameOf) ∧
      (emitted s s1).countP isDcWrite = (emitted s s1).countP isWriteByte) ∧
    (emitted s (setup s)).filter isBusEvent = [Event.dcWrite false] := by
  refine ⟨(steps_command b s).emitted_eq, (steps_data b s).emitted_eq, ?_, setup_emitted_bus s⟩
  obtain ⟨s1, evs, hrun, ht, hfr⟩ := runOps_framed fuel hf ops s
  refine ⟨s1, hrun, ?_, ?_⟩
  · intro dc
    rw [emitted_of_trace ht]
    exact (framed_counts evs hfr).2 dc
  · rw [emitted_of_trace ht]
    exact (framed_counts evs hfr).1

theorem command_data_framing_witness :
    ∃ s1, runOps 102 [Op.init_display, Op.update [⟨1, 1, true⟩], Op.command 0x20]
        (setup (fresh true true (fun _ => true) 0)) = some s1 ∧
      (emitted (setup (fresh true true (fun _ => true) 0)) s1).countP isDcWrite =
        (emitted (setup (fresh true true (fun _ => true) 0)) s1).countP isWriteByte :=
  (command_data_framing 102 (by decide)
    [Op.init_display, Op.update [⟨1, 1, true⟩], Op.command 0x20]
    (setup (fresh true true (fun _ => true) 0)) 0).2.2.1.imp (fun _ h => ⟨h.1, h.2.2⟩)

end SSD1680
